import Mathlib

/-!
# Verification of the Wikipedia path-finder script

A shallow embedding of `src/script.py` (class `WikipediaPathFinder`) and proofs
about it.  Strings are modelled as Lean `String` / `List Char`; the fragments of
`urllib.parse` (`urlparse`, `urlsplit`) that the script relies on are embedded
following CPython's `urllib/parse.py`.  CPython's `urlsplit` can raise
`ValueError` from three netloc checks (mismatched square brackets; bracketed
hosts failing IPv6/IPvFuture validation; non-ASCII netlocs altered by NFKC
normalization in `_checknetloc`): `urlsplitCore` below is the splitting
computation on the non-raising branch, and theorems that quantify
`normalize_url` over all inputs carry the decidable sufficient condition
`plainAscii` (no square brackets, ASCII only) on the parsed components under
which all three checks pass, so those theorems speak only where the embedding
and CPython agree.  Network fetching, HTML link extraction and the clock are
external collaborators of the script and enter the model as explicit oracle
functions and explicit time values.
-/

namespace WikiPath

/-! ## Character helpers (ASCII classification used by `urllib.parse`) -/

/-- ASCII upper-case letter. -/
def isAsciiUpper (c : Char) : Bool := 65 ≤ c.toNat && c.toNat ≤ 90

/-- ASCII letter.  CPython's scheme check is `url[0].isascii() and url[0].isalpha()`,
which is exactly ASCII-letter. -/
def isAsciiAlpha (c : Char) : Bool :=
  isAsciiUpper c || (97 ≤ c.toNat && c.toNat ≤ 122)

/-- ASCII digit. -/
def isAsciiDigit (c : Char) : Bool := 48 ≤ c.toNat && c.toNat ≤ 57

/-- CPython `scheme_chars = ascii_letters + digits + '+-.'`. -/
def schemeChar (c : Char) : Bool :=
  isAsciiAlpha c || isAsciiDigit c || c = '+' || c = '-' || c = '.'

/-- `_WHATWG_C0_CONTROL_OR_SPACE`: code points `0x00`–`0x20`. -/
def c0OrSpace (c : Char) : Bool := c.toNat ≤ 32

/-- `_UNSAFE_URL_BYTES_TO_REMOVE = ["\t", "\r", "\n"]`. -/
def unsafeUrlByte (c : Char) : Bool := c = '\t' || c = '\r' || c = '\n'

/-- A character that keeps CPython's `urlsplit` on its non-raising path when it
appears in the parsed netloc: not a square bracket (the mismatched-bracket
check and `_check_bracketed_host` both require one) and ASCII (`_checknetloc`
returns immediately for ASCII netlocs).  Exact models of
`_check_bracketed_host` (IPv6/IPvFuture address parsing) and `_checknetloc`
(NFKC normalization) are out of scope; `plainAscii` over the netloc is a
decidable *sufficient* condition for `urlsplit` to return normally, carried as
a hypothesis by the theorems that quantify `normalize_url` over all inputs. -/
def plainAscii (c : Char) : Bool := c ≠ '[' && c ≠ ']' && c.toNat < 128

/-- ASCII lower-casing.  CPython applies `str.lower()` to the scheme; the
scheme has already been checked to consist of `scheme_chars` only, so only the
26 ASCII upper-case letters can be affected, and on those `str.lower()` adds 32
to the code point. -/
def lowerChar (c : Char) : Char :=
  if isAsciiUpper c then Char.ofNat (c.toNat + 32) else c

/-! ## List-of-characters helpers -/

/-- `leadsWith pat l` : `l` starts with `pat` (Python `str.startswith`). -/
def leadsWith : List Char → List Char → Bool
  | [], _ => true
  | _ :: _, [] => false
  | a :: s, b :: t => a = b && leadsWith s t

/-- `isSubstring needle hay` : Python `needle in hay` (contiguous substring). -/
def isSubstring (needle : List Char) : List Char → Bool
  | [] => leadsWith needle []
  | c :: t => leadsWith needle (c :: t) || isSubstring needle t

/-- Strip trailing `'/'` characters: Python `str.rstrip('/')`. -/
def rstripSlash (l : List Char) : List Char :=
  (l.reverse.dropWhile (fun c => c = '/')).reverse

/-- Python `url.split(d, 1)`-style split at the first occurrence of the
character `d`: returns the part before it and the part after it
(`(l, [])` when `d` does not occur). -/
def splitAt1 (d : Char) (l : List Char) : List Char × List Char :=
  (l.takeWhile (fun c => c ≠ d), (l.dropWhile (fun c => c ≠ d)).tail)

/-! ## The link classifier `_is_valid_wikipedia_link`

`script.py` lines 108–137.  The method recurses on
`href.split('/wiki/')[-1]`: the final piece of the left-to-right
non-overlapping split of `href` on the separator `'/wiki/'`. -/

/-- The article path prefix `'/wiki/'`. -/
def wikiSep : List Char := '/' :: 'w' :: 'i' :: 'k' :: 'i' :: '/' :: []

/-- Locate the first (leftmost) occurrence of `'/wiki/'` in `l` and return the
remainder after it; `none` when there is no occurrence.  `(findAfterFirst
l).isSome` is Python's `'/wiki/' in l`. -/
def findAfterFirst : List Char → Option (List Char)
  | [] => none
  | c :: t => if leadsWith wikiSep (c :: t) then some ((c :: t).drop 6) else findAfterFirst t

/-- Python `l.split('/wiki/')[-1]`: repeatedly skip past the first occurrence of
the separator; the fuel `l.length` dominates the number of iterations. -/
def splitTailAux : Nat → List Char → List Char
  | 0, l => l
  | fuel + 1, l =>
    match findAfterFirst l with
    | none => l
    | some r => splitTailAux fuel r

/-- Python `l.split('/wiki/')[-1]`. -/
def splitTail (l : List Char) : List Char := splitTailAux l.length l

theorem findAfterFirst_length : ∀ {l r : List Char}, findAfterFirst l = some r →
    r.length < l.length := by
  intro l
  induction l with
  | nil => intro r h; simp [findAfterFirst] at h
  | cons c t ih =>
    intro r h
    by_cases hc : leadsWith wikiSep (c :: t) = true
    · simp [findAfterFirst, hc] at h
      subst h
      simp only [List.length_drop, List.length_cons]
      omega
    · simp [findAfterFirst, hc] at h
      exact Nat.lt_trans (ih h) (by simp)

theorem splitTailAux_length : ∀ (f : Nat) (l : List Char),
    (splitTailAux f l).length ≤ l.length := by
  intro f
  induction f with
  | zero => intro l; simp [splitTailAux]
  | succ f ih =>
    intro l
    cases h : findAfterFirst l with
    | none => simp [splitTailAux, h]
    | some r =>
      simp only [splitTailAux, h]
      exact Nat.le_trans (ih r) (Nat.le_of_lt (findAfterFirst_length h))

theorem splitTail_length_lt {l : List Char} (h : (findAfterFirst l).isSome = true) :
    (splitTail l).length < l.length := by
  obtain ⟨r, hr⟩ := Option.isSome_iff_exists.mp h
  have hpos : 0 < l.length := by
    cases l with
    | nil => simp [findAfterFirst] at hr
    | cons c t => simp
  obtain ⟨n, hn⟩ : ∃ n, l.length = n + 1 := ⟨l.length - 1, by omega⟩
  unfold splitTail
  rw [hn]
  simp only [splitTailAux, hr]
  calc (splitTailAux n r).length ≤ r.length := splitTailAux_length n r
    _ < l.length := findAfterFirst_length hr
    _ = n + 1 := hn

/-- The namespace denylist of `_is_valid_wikipedia_link` (`script.py` 114–120). -/
def excluded_prefixes : List String :=
  ["File:", "Category:", "Template:", "Help:", "Special:",
   "User:", "Wikipedia:", "Talk:", "User_talk:", "Wikipedia_talk:",
   "Template_talk:", "Help_talk:", "Category_talk:", "Portal:",
   "Файл:", "Категория:", "Шаблон:", "Справка:", "Участник:",
   "Обсуждение:", "Служебная:", "Портал:"]

/-- Body of `_is_valid_wikipedia_link` (`script.py` 108–137).  The fuel only
bounds the recursion `self._is_valid_wikipedia_link(href.split('/wiki/')[-1],
wiki_domain)`; `is_valid_aux_fuel` below shows any fuel above `href.length`
gives the same answer, so the wrapper's choice `href.length + 1` is faithful. -/
def is_valid_aux (dom : List Char) : Nat → List Char → Bool
  | 0, _ => false
  | fuel + 1, href =>
    if href = [] then false
    else if leadsWith wikiSep href then
      if href.contains '#' then false
      else if excluded_prefixes.any (fun p => leadsWith (wikiSep ++ p.data) href) then false
      else true
    else if isSubstring dom href && (findAfterFirst href).isSome then
      is_valid_aux dom fuel (splitTail href)
    else false

/-- `_is_valid_wikipedia_link(href, wiki_domain)` (`script.py` 108–137). -/
def is_valid_wikipedia_link (href wiki_domain : String) : Bool :=
  is_valid_aux wiki_domain.data (href.data.length + 1) href.data

theorem is_valid_aux_fuel (dom : List Char) :
    ∀ (n : Nat) (href : List Char), href.length ≤ n →
      ∀ f₁ f₂, href.length < f₁ → href.length < f₂ →
      is_valid_aux dom f₁ href = is_valid_aux dom f₂ href := by
  intro n
  induction n with
  | zero =>
    intro href hlen f₁ f₂ h1 h2
    have : href = [] := List.length_eq_zero.mp (Nat.le_zero.mp hlen)
    subst this
    obtain ⟨a, rfl⟩ : ∃ a, f₁ = a + 1 := ⟨f₁ - 1, by omega⟩
    obtain ⟨b, rfl⟩ : ∃ b, f₂ = b + 1 := ⟨f₂ - 1, by omega⟩
    simp [is_valid_aux]
  | succ n ih =>
    intro href hlen f₁ f₂ h1 h2
    obtain ⟨a, rfl⟩ : ∃ a, f₁ = a + 1 := ⟨f₁ - 1, by omega⟩
    obtain ⟨b, rfl⟩ : ∃ b, f₂ = b + 1 := ⟨f₂ - 1, by omega⟩
    simp only [is_valid_aux]
    split_ifs with hempty hwiki hhash hexcl hrec
    · rfl
    · rfl
    · rfl
    · rfl
    · have hsome : (findAfterFirst href).isSome = true := by
        simp only [Bool.and_eq_true] at hrec
        exact hrec.2
      have hlt := splitTail_length_lt hsome
      exact ih (splitTail href) (by omega) a b (by omega) (by omega)
    · rfl

end WikiPath

/-- **C1** (code bug).  The spec says a full URL whose host matches `siteHost`
and whose path contains `/wiki/` is classified by recursing on the substring
after the article path prefix, treated as a bare `/wiki/...` path, so
`https://en.wikipedia.org/wiki/Dog` should be accepted.  The code instead
recurses on `href.split('/wiki/')[-1]` — the remainder *without* the `/wiki/`
prefix — which can never satisfy the bare-path case, so every full URL is
rejected.  First conjunct: the code rejects the full URL.  Second conjunct: the
bare path obtained by keeping the article path prefix (the classification the
spec prescribes for the remainder) is accepted, so the intended answer is
`true`. -/
theorem c1_full_url_rejected_despite_spec :
    WikiPath.is_valid_wikipedia_link "https://en.wikipedia.org/wiki/Dog" "en.wikipedia.org"
      = false ∧
    WikiPath.is_valid_wikipedia_link "/wiki/Dog" "en.wikipedia.org" = true :=
  ⟨rfl, rfl⟩

/-- **C6** (confirmed).  For every host string, `/wiki/Category:Foo` is rejected
(denylisted namespace), `/wiki/Foo` is accepted, and `/wiki/Foo#Bar` is rejected
(fragment marker). -/
theorem c6_classifier_examples (host : String) :
    WikiPath.is_valid_wikipedia_link "/wiki/Category:Foo" host = false ∧
    WikiPath.is_valid_wikipedia_link "/wiki/Foo" host = true ∧
    WikiPath.is_valid_wikipedia_link "/wiki/Foo#Bar" host = false :=
  ⟨rfl, rfl, rfl⟩

/-- **C10** (confirmed).  The bare article path prefix with an empty title,
`/wiki/`, is accepted by the classifier for every host: it starts with the
prefix, contains no `#`, and matches no denylisted namespace prefix. -/
theorem c10_empty_title_accepted (host : String) :
    WikiPath.is_valid_wikipedia_link "/wiki/" host = true :=
  rfl



namespace WikiPath

/-! ## `urllib.parse` and `normalize_url`

`normalize_url` (`script.py` 139–143) does
`parsed = urlparse(url); f"{parsed.scheme}://{parsed.netloc}{parsed.path}".rstrip('/')`.
The embedding below follows CPython's `urllib/parse.py`: `urlsplit` cleans the
input (strip leading C0-control/space characters, delete `\t`, `\r`, `\n`),
splits off a scheme when the text before the first `:` is a valid scheme
beginning with an ASCII letter, takes a netloc after a leading `//` up to the
next `/`, `?` or `#`, then splits off the fragment at the first `#` and the
query at the first `?`; `urlparse` additionally splits `;params` off the last
path segment. -/

/-- All characters up to the first `:`; the scheme candidate. -/
def preColon (l : List Char) : List Char := l.takeWhile (fun c => c ≠ ':')

/-- Everything from the first `:` on (empty when there is no `:`). -/
def fromColon (l : List Char) : List Char := l.dropWhile (fun c => c ≠ ':')

/-- First character is an ASCII letter (CPython `url[0].isascii() and url[0].isalpha()`). -/
def headIsAlpha : List Char → Bool
  | [] => false
  | c :: _ => isAsciiAlpha c

/-- CPython scheme extraction: if there is a `:` at position `> 0`, the first
character is an ASCII letter and everything before the `:` consists of
`scheme_chars`, the scheme is that text lower-cased and parsing continues after
the `:`; otherwise there is no scheme. -/
def splitScheme (l : List Char) : List Char × List Char :=
  if fromColon l ≠ [] && preColon l ≠ [] && headIsAlpha (preColon l) &&
      (preColon l).all schemeChar then
    ((preColon l).map lowerChar, (fromColon l).tail)
  else
    ([], l)

/-- A character that does not end the netloc (`_splitnetloc` delimiters `/?#`). -/
def netlocChar (c : Char) : Bool := c ≠ '/' && c ≠ '?' && c ≠ '#'

/-- CPython: `if url[:2] == '//': netloc, url = _splitnetloc(url, 2)`. -/
def splitNetloc (l : List Char) : List Char × List Char :=
  if l.take 2 = ['/', '/'] then
    ((l.drop 2).takeWhile netlocChar, (l.drop 2).dropWhile netlocChar)
  else
    ([], l)

/-- Result of `urlsplit`: `(scheme, netloc, path, query, fragment)`. -/
structure SplitResult where
  scheme : List Char
  netloc : List Char
  path : List Char
  query : List Char
  fragment : List Char

/-- CPython input cleaning in `urlsplit`. -/
def cleanUrl (l : List Char) : List Char :=
  (l.filter (fun c => !unsafeUrlByte c)).dropWhile c0OrSpace

/-- CPython `urlsplit(url)` (with `allow_fragments=True`) on its non-raising
branch.  The real function additionally raises `ValueError` when the extracted
netloc has mismatched square brackets, a bracketed host that is not a valid
IPv6/IPvFuture address, or non-ASCII characters that NFKC normalization turns
into separators (`_checknetloc`); none of these can fire when every netloc
character satisfies `plainAscii`, and the theorems quantifying over all inputs
assume exactly that (see the file comment). -/
def urlsplitCore (input : List Char) : SplitResult :=
  let url0 := cleanUrl input
  let sp := splitScheme url0
  let nl := splitNetloc sp.2
  let fr := splitAt1 '#' nl.2
  let qu := splitAt1 '?' fr.1
  ⟨sp.1, nl.1, qu.1, qu.2, fr.2⟩

/-- The last `/`-separated segment of a path (everything after the last `/`, or
the whole path when it has no `/`): the region in which CPython's
`_splitparams` looks for a `;`. -/
def lastSeg (l : List Char) : List Char :=
  (l.reverse.takeWhile (fun c => c ≠ '/')).reverse

/-- The complement of `lastSeg`: up to and including the last `/`. -/
def segInit (l : List Char) : List Char :=
  (l.reverse.dropWhile (fun c => c ≠ '/')).reverse

/-- CPython `_splitparams(url)`: split `;params` off the last path segment
(searching for `;` only at or after the last `/`). -/
def splitparams (l : List Char) : List Char × List Char :=
  if ';' ∈ lastSeg l then
    (segInit l ++ (lastSeg l).takeWhile (fun c => c ≠ ';'),
     ((lastSeg l).dropWhile (fun c => c ≠ ';')).tail)
  else
    (l, [])

/-- Result of `urlparse`: `(scheme, netloc, path, params, query, fragment)`. -/
structure ParseResult where
  scheme : List Char
  netloc : List Char
  path : List Char
  params : List Char
  query : List Char
  fragment : List Char

/-- CPython `uses_params`: the schemes for which `urlparse` splits a `;params`
suffix off the last path segment. -/
def uses_params : List String :=
  ["", "ftp", "hdl", "prospero", "http", "imap", "https", "shttp",
   "rtsp", "rtsps", "rtspu", "sip", "sips", "mms", "sftp", "tel"]

/-- Python `scheme in uses_params`. -/
def schemeUsesParams (scheme : List Char) : Bool :=
  uses_params.any (fun q => q.data == scheme)

/-- CPython `urlparse(url)`: `urlsplit` followed by `_splitparams` on the path,
guarded by `if scheme in uses_params and ';' in url`. -/
def urlparseCore (input : List Char) : ParseResult :=
  let s := urlsplitCore input
  if schemeUsesParams s.scheme = true ∧ ';' ∈ s.path then
    ⟨s.scheme, s.netloc, (splitparams s.path).1, (splitparams s.path).2, s.query, s.fragment⟩
  else
    ⟨s.scheme, s.netloc, s.path, [], s.query, s.fragment⟩

/-- `normalize_url` (`script.py` 139–143):
`f"{parsed.scheme}://{parsed.netloc}{parsed.path}".rstrip('/')` with
`parsed = urlparse(url)`. -/
def normalize_url (url : String) : String :=
  let parsed := urlparseCore url.data
  ⟨rstripSlash (parsed.scheme ++ (':' :: '/' :: '/' :: []) ++ parsed.netloc ++ parsed.path)⟩

/-- Modelled from the spec (§4.1): "Output: `scheme://host/path` with any
trailing `/` stripped; query string and fragment discarded."  The scheme, host
and path of a URL are the components of the standard five-part split
(`urlsplit`): in particular the path is everything between the authority and
the query/fragment, `;params` included. -/
def specCanonical (url : String) : String :=
  let parsed := urlsplitCore url.data
  ⟨rstripSlash (parsed.scheme ++ (':' :: '/' :: '/' :: []) ++ parsed.netloc ++ parsed.path)⟩

end WikiPath

namespace WikiPath

/-! ## List and character lemmas used by the URL-normalizer proofs -/

theorem takeWhile_append_all {p : Char → Bool} {a : List Char} (b : List Char)
    (h : ∀ c ∈ a, p c = true) : (a ++ b).takeWhile p = a ++ b.takeWhile p := by
  rw [List.takeWhile_append, if_pos]
  rw [List.takeWhile_eq_self_iff.mpr h]

theorem dropWhile_append_all {p : Char → Bool} {a : List Char} (b : List Char)
    (h : ∀ c ∈ a, p c = true) : (a ++ b).dropWhile p = b.dropWhile p := by
  rw [List.dropWhile_append, if_pos]
  simp [List.dropWhile_eq_nil_iff.mpr h]

theorem dropWhile_all_false {p : Char → Bool} {l : List Char}
    (h : ∀ c ∈ l, p c = false) : l.dropWhile p = l := by
  cases l with
  | nil => rfl
  | cons c t => rw [List.dropWhile_cons, if_neg (by simp [h c (by simp)])]

theorem dropWhile_dropWhile (p : Char → Bool) (l : List Char) :
    (l.dropWhile p).dropWhile p = l.dropWhile p := by
  induction l with
  | nil => rfl
  | cons c t ih =>
    by_cases h : p c = true
    · simp [List.dropWhile_cons, h, ih]
    · simp [List.dropWhile_cons, h]

theorem mem_rstripSlash {c : Char} {l : List Char} (h : c ∈ rstripSlash l) : c ∈ l := by
  unfold rstripSlash at h
  rw [List.mem_reverse] at h
  exact List.mem_reverse.mp ((List.dropWhile_sublist _).mem h)

theorem rstripSlash_append (a b : List Char) :
    rstripSlash (a ++ b) =
      if rstripSlash b = [] then rstripSlash a else a ++ rstripSlash b := by
  unfold rstripSlash
  rw [List.reverse_append, List.dropWhile_append]
  by_cases h : (b.reverse.dropWhile (fun c => c = '/')) = []
  · rw [if_pos (by simp [h]), if_pos (by simp [h])]
  · rw [if_neg (by simp [h]), if_neg (by simp [List.reverse_eq_nil_iff.not.mpr, h]),
      List.reverse_append, List.reverse_reverse]

theorem rstripSlash_rstripSlash (l : List Char) :
    rstripSlash (rstripSlash l) = rstripSlash l := by
  unfold rstripSlash
  rw [List.reverse_reverse, dropWhile_dropWhile]

theorem rstripSlash_no_slash {l : List Char} (h : '/' ∉ l) : rstripSlash l = l := by
  unfold rstripSlash
  rw [dropWhile_all_false, List.reverse_reverse]
  intro c hc
  have : c ∈ l := List.mem_reverse.mp hc
  simp only [decide_eq_false_iff_not]
  intro hcs
  exact h (hcs ▸ this)

theorem schemeChar_ne_colon {c : Char} (h : schemeChar c = true) : c ≠ ':' := by
  intro hc
  subst hc
  revert h
  decide

theorem schemeChar_not_unsafe {c : Char} (h : schemeChar c = true) :
    unsafeUrlByte c = false := by
  by_cases h1 : c = '\t'
  · subst h1; revert h; decide
  · by_cases h2 : c = '\r'
    · subst h2; revert h; decide
    · by_cases h3 : c = '\n'
      · subst h3; revert h; decide
      · simp [unsafeUrlByte, h1, h2, h3]

theorem isAsciiAlpha_not_c0 {c : Char} (h : isAsciiAlpha c = true) :
    c0OrSpace c = false := by
  simp only [isAsciiAlpha, isAsciiUpper, Bool.or_eq_true, Bool.and_eq_true,
    decide_eq_true_eq] at h
  simp only [c0OrSpace, decide_eq_false_iff_not]
  omega

theorem char_toNat_ofNat {n : Nat} (h : Nat.isValidChar n) : (Char.ofNat n).toNat = n := by
  have h2 : n < 2 ^ 32 := by
    rcases h with h | ⟨h1, h2⟩
    · omega
    · omega
  simp only [Char.ofNat, dif_pos h, Char.toNat, Char.ofNatAux]
  simp [UInt32.toNat, UInt32.ofNat', Nat.mod_eq_of_lt h2]

theorem toNat_lowerChar_of_upper {c : Char} (h : isAsciiUpper c = true) :
    (lowerChar c).toNat = c.toNat + 32 := by
  have hb : 65 ≤ c.toNat ∧ c.toNat ≤ 90 := by
    simpa [isAsciiUpper, Bool.and_eq_true, decide_eq_true_eq] using h
  rw [lowerChar, if_pos h]
  exact char_toNat_ofNat (Or.inl (by omega))

theorem lowerChar_eq_self {c : Char} (h : isAsciiUpper c = false) : lowerChar c = c := by
  rw [lowerChar, h]
  rfl

theorem lowerChar_alpha {c : Char} (h : isAsciiAlpha c = true) :
    isAsciiAlpha (lowerChar c) = true := by
  by_cases hu : isAsciiUpper c = true
  · have hb : 65 ≤ c.toNat ∧ c.toNat ≤ 90 := by
      simpa [isAsciiUpper, Bool.and_eq_true, decide_eq_true_eq] using hu
    have ht := toNat_lowerChar_of_upper hu
    simp only [isAsciiAlpha, isAsciiUpper, Bool.or_eq_true, Bool.and_eq_true,
      decide_eq_true_eq, ht]
    omega
  · rw [lowerChar_eq_self (Bool.not_eq_true _ ▸ hu : isAsciiUpper c = false)]
    exact h

theorem lowerChar_schemeChar {c : Char} (h : schemeChar c = true) :
    schemeChar (lowerChar c) = true := by
  by_cases hu : isAsciiUpper c = true
  · have ha : isAsciiAlpha (lowerChar c) = true :=
      lowerChar_alpha (by simp [isAsciiAlpha, hu])
    simp [schemeChar, ha]
  · rw [lowerChar_eq_self (Bool.not_eq_true _ ▸ hu : isAsciiUpper c = false)]
    exact h

theorem lowerChar_lowerChar (c : Char) : lowerChar (lowerChar c) = lowerChar c := by
  by_cases hu : isAsciiUpper c = true
  · have ht := toNat_lowerChar_of_upper hu
    have hb : 65 ≤ c.toNat ∧ c.toNat ≤ 90 := by
      simpa [isAsciiUpper, Bool.and_eq_true, decide_eq_true_eq] using hu
    have : isAsciiUpper (lowerChar c) = false := by
      simp only [isAsciiUpper, ht, Bool.and_eq_false_iff, decide_eq_false_iff_not]
      omega
    exact lowerChar_eq_self this
  · have h0 : isAsciiUpper c = false := Bool.not_eq_true _ ▸ hu
    rw [lowerChar_eq_self h0, lowerChar_eq_self h0]

end WikiPath

namespace WikiPath

/-! ## Characterizing `urlsplitCore` on its own output -/

theorem mem_cleanUrl_not_unsafe {c : Char} {l : List Char} (h : c ∈ cleanUrl l) :
    unsafeUrlByte c = false := by
  unfold cleanUrl at h
  have h3 : c ∈ l.filter (fun c => !unsafeUrlByte c) :=
    List.Sublist.mem h (List.dropWhile_sublist _)
  have h4 := (List.mem_filter.mp h3).2
  simpa using h4

theorem splitScheme_snd_subset {c : Char} {l : List Char} (h : c ∈ (splitScheme l).2) :
    c ∈ l := by
  unfold splitScheme at h
  split at h
  · exact List.Sublist.mem h ((List.tail_sublist _).trans (List.dropWhile_sublist _))
  · exact h

theorem splitNetloc_fst_netlocChar {c : Char} {l : List Char} (h : c ∈ (splitNetloc l).1) :
    netlocChar c = true := by
  unfold splitNetloc at h
  split at h
  · exact List.mem_takeWhile_imp h
  · simp at h

theorem splitNetloc_fst_subset {c : Char} {l : List Char} (h : c ∈ (splitNetloc l).1) :
    c ∈ l := by
  unfold splitNetloc at h
  split at h
  · exact List.Sublist.mem h ((List.takeWhile_sublist _).trans (List.drop_sublist _ _))
  · simp at h

theorem splitNetloc_snd_subset {c : Char} {l : List Char} (h : c ∈ (splitNetloc l).2) :
    c ∈ l := by
  unfold splitNetloc at h
  split at h
  · exact List.Sublist.mem h ((List.dropWhile_sublist _).trans (List.drop_sublist _ _))
  · exact h

theorem splitAt1_fst_ne {d c : Char} {l : List Char} (h : c ∈ (splitAt1 d l).1) :
    c ≠ d := by
  unfold splitAt1 at h
  have := List.mem_takeWhile_imp h
  simpa using this

theorem splitAt1_fst_subset {d c : Char} {l : List Char} (h : c ∈ (splitAt1 d l).1) :
    c ∈ l :=
  List.Sublist.mem h (List.takeWhile_sublist _)

theorem splitScheme_fst_spec {l : List Char} (h : (splitScheme l).1 ≠ []) :
    (splitScheme l).1 = (preColon l).map lowerChar ∧
    (∀ c ∈ preColon l, schemeChar c = true) ∧ headIsAlpha (preColon l) = true ∧
    preColon l ≠ [] := by
  unfold splitScheme at h ⊢
  by_cases hc : (decide (fromColon l ≠ []) && decide (preColon l ≠ []) &&
      headIsAlpha (preColon l) && (preColon l).all schemeChar) = true
  · simp only [Bool.and_eq_true, decide_eq_true_eq] at hc
    rw [if_pos (by simp [hc.1.1.1, hc.1.1.2, hc.1.2, hc.2])]
    exact ⟨rfl, List.all_eq_true.mp hc.2, hc.1.2, hc.1.1.2⟩
  · rw [if_neg (by simpa using hc)] at h
    exact absurd rfl h

/-! ## Parsing a rebuilt canonical URL -/

theorem urlsplitCore_eq (X : List Char) :
    urlsplitCore X =
      { scheme := (splitScheme (cleanUrl X)).1,
        netloc := (splitNetloc (splitScheme (cleanUrl X)).2).1,
        path := (splitAt1 '?' (splitAt1 '#' (splitNetloc (splitScheme (cleanUrl X)).2).2).1).1,
        query := (splitAt1 '?' (splitAt1 '#' (splitNetloc (splitScheme (cleanUrl X)).2).2).1).2,
        fragment := (splitAt1 '#' (splitNetloc (splitScheme (cleanUrl X)).2).2).2 } :=
  rfl

theorem cleanUrl_cons {c0 : Char} {t : List Char}
    (hu : ∀ c ∈ c0 :: t, unsafeUrlByte c = false) (h0 : c0OrSpace c0 = false) :
    cleanUrl (c0 :: t) = c0 :: t := by
  unfold cleanUrl
  rw [List.filter_eq_self.mpr (fun a ha => by simp [hu a ha])]
  rw [List.dropWhile_cons, if_neg (by simp [h0])]

theorem splitScheme_append {s rest : List Char} (hs : s ≠ [])
    (hsc : ∀ c ∈ s, schemeChar c = true) (hsh : headIsAlpha s = true) :
    splitScheme (s ++ ':' :: rest) = (s.map lowerChar, rest) := by
  have hpre : preColon (s ++ ':' :: rest) = s := by
    unfold preColon
    rw [takeWhile_append_all (':' :: rest)
      (fun c hc => by simpa using schemeChar_ne_colon (hsc c hc))]
    rw [List.takeWhile_cons, if_neg (by simp)]
    simp
  have hfrom : fromColon (s ++ ':' :: rest) = ':' :: rest := by
    unfold fromColon
    rw [dropWhile_append_all (':' :: rest)
      (fun c hc => by simpa using schemeChar_ne_colon (hsc c hc))]
    rw [List.dropWhile_cons, if_neg (by simp)]
  unfold splitScheme
  rw [hpre, hfrom]
  rw [if_pos (by simp [hs, hsh, List.all_eq_true.mpr hsc])]
  rfl

theorem splitNetloc_slashes (rest : List Char) :
    splitNetloc ('/' :: '/' :: rest) = (rest.takeWhile netlocChar, rest.dropWhile netlocChar) :=
  rfl

theorem splitNetloc_nil : splitNetloc [] = ([], []) := by
  unfold splitNetloc
  rw [if_neg (by simp)]

theorem splitAt1_no_occ {d : Char} {l : List Char} (h : ∀ c ∈ l, c ≠ d) :
    splitAt1 d l = (l, []) := by
  unfold splitAt1
  rw [List.takeWhile_eq_self_iff.mpr (fun c hc => by simp [h c hc])]
  rw [List.dropWhile_eq_nil_iff.mpr (fun c hc => by simp [h c hc])]
  rfl

theorem urlsplit_rebuild_colon {s : List Char} (hs : s ≠ [])
    (hsc : ∀ c ∈ s, schemeChar c = true) (hsh : headIsAlpha s = true) :
    urlsplitCore (s ++ [':']) = ⟨s.map lowerChar, [], [], [], []⟩ := by
  obtain ⟨c0, s', rfl⟩ : ∃ c0 s', s = c0 :: s' := by
    cases s with
    | nil => exact absurd rfl hs
    | cons a t => exact ⟨a, t, rfl⟩
  have h0 : c0OrSpace c0 = false :=
    isAsciiAlpha_not_c0 (by simpa [headIsAlpha] using hsh)
  have hclean : cleanUrl (c0 :: (s' ++ [':'])) = c0 :: (s' ++ [':']) := by
    refine cleanUrl_cons ?_ h0
    intro c hc
    rcases List.mem_cons.mp hc with rfl | hc
    · exact schemeChar_not_unsafe (hsc c (by simp))
    · rcases List.mem_append.mp hc with hc | hc
      · exact schemeChar_not_unsafe (hsc c (by simp [hc]))
      · simp at hc
        subst hc
        decide
  have es : splitScheme (c0 :: (s' ++ [':'])) = ((c0 :: s').map lowerChar, []) := by
    rw [← List.cons_append]
    exact splitScheme_append hs hsc hsh
  rw [urlsplitCore_eq, List.cons_append, hclean]
  simp [es, splitNetloc_nil, splitAt1]

theorem urlsplit_rebuild {s n p : List Char} (hs : s ≠ [])
    (hsc : ∀ c ∈ s, schemeChar c = true) (hsh : headIsAlpha s = true)
    (hn : ∀ c ∈ n, netlocChar c = true)
    (hnu : ∀ c ∈ n, unsafeUrlByte c = false)
    (hph : ∀ c ∈ p, c ≠ '#') (hpq : ∀ c ∈ p, c ≠ '?')
    (hpu : ∀ c ∈ p, unsafeUrlByte c = false) :
    urlsplitCore (s ++ ':' :: '/' :: '/' :: (n ++ p)) =
      ⟨s.map lowerChar, n ++ p.takeWhile netlocChar, p.dropWhile netlocChar, [], []⟩ := by
  obtain ⟨c0, s', rfl⟩ : ∃ c0 s', s = c0 :: s' := by
    cases s with
    | nil => exact absurd rfl hs
    | cons a t => exact ⟨a, t, rfl⟩
  have h0 : c0OrSpace c0 = false :=
    isAsciiAlpha_not_c0 (by simpa [headIsAlpha] using hsh)
  have hclean : cleanUrl (c0 :: (s' ++ ':' :: '/' :: '/' :: (n ++ p)))
      = c0 :: (s' ++ ':' :: '/' :: '/' :: (n ++ p)) := by
    refine cleanUrl_cons ?_ h0
    intro c hc
    rcases List.mem_cons.mp hc with rfl | hc
    · exact schemeChar_not_unsafe (hsc c (by simp))
    · rcases List.mem_append.mp hc with hc | hc
      · exact schemeChar_not_unsafe (hsc c (by simp [hc]))
      · rcases List.mem_cons.mp hc with rfl | hc
        · decide
        · rcases List.mem_cons.mp hc with rfl | hc
          · decide
          · rcases List.mem_cons.mp hc with rfl | hc
            · decide
            · rcases List.mem_append.mp hc with hc | hc
              · exact hnu c hc
              · exact hpu c hc
  have es : splitScheme (c0 :: (s' ++ ':' :: '/' :: '/' :: (n ++ p)))
      = ((c0 :: s').map lowerChar, '/' :: '/' :: (n ++ p)) := by
    rw [← List.cons_append]
    exact splitScheme_append hs hsc hsh
  have eh : splitAt1 '#' (p.dropWhile netlocChar) = (p.dropWhile netlocChar, []) :=
    splitAt1_no_occ (fun c hc => hph c (List.Sublist.mem hc (List.dropWhile_sublist _)))
  have eq2 : splitAt1 '?' (p.dropWhile netlocChar) = (p.dropWhile netlocChar, []) :=
    splitAt1_no_occ (fun c hc => hpq c (List.Sublist.mem hc (List.dropWhile_sublist _)))
  rw [urlsplitCore_eq, List.cons_append, hclean]
  simp [es, splitNetloc_slashes, takeWhile_append_all p hn, dropWhile_append_all p hn,
    eh, eq2]

end WikiPath

namespace WikiPath

/-! ## Unfolding `normalize_url` -/

theorem urlparseCore_eq (X : List Char) :
    urlparseCore X =
      if schemeUsesParams (urlsplitCore X).scheme = true ∧ ';' ∈ (urlsplitCore X).path then
        ⟨(urlsplitCore X).scheme, (urlsplitCore X).netloc, (splitparams (urlsplitCore X).path).1,
          (splitparams (urlsplitCore X).path).2, (urlsplitCore X).query, (urlsplitCore X).fragment⟩
      else
        ⟨(urlsplitCore X).scheme, (urlsplitCore X).netloc, (urlsplitCore X).path, [],
          (urlsplitCore X).query, (urlsplitCore X).fragment⟩ :=
  rfl

theorem normalize_url_eq (u : String) :
    normalize_url u = ⟨rstripSlash ((urlparseCore u.data).scheme ++ ':' :: '/' :: '/' :: []
      ++ (urlparseCore u.data).netloc ++ (urlparseCore u.data).path)⟩ :=
  rfl

theorem normalize_of_parse {u : String} {S N P Q F : List Char}
    (hp : urlsplitCore u.data = ⟨S, N, P, Q, F⟩) (hsemi : ';' ∉ P) :
    normalize_url u = ⟨rstripSlash (S ++ ':' :: '/' :: '/' :: [] ++ N ++ P)⟩ := by
  rw [normalize_url_eq, urlparseCore_eq, hp]
  rw [if_neg (fun hcon => hsemi hcon.2)]

/-! ## Idempotence of `normalize_url` on inputs with a scheme -/

theorem normalize_idem_aux {u : String}
    (hs : (urlsplitCore u.data).scheme ≠ [])
    (hsemi : ';' ∉ (urlsplitCore u.data).path) :
    normalize_url (normalize_url u) = normalize_url u ∧
    (∀ c ∈ (urlsplitCore (normalize_url u).data).netloc,
      c ∈ (urlsplitCore u.data).netloc ∨ c ∈ (urlsplitCore u.data).path) ∧
    (∀ c ∈ (urlsplitCore (normalize_url u).data).path,
      c ∈ (urlsplitCore u.data).path) := by
  have hs' : (splitScheme (cleanUrl u.data)).1 ≠ [] := by
    rw [urlsplitCore_eq] at hs
    exact hs
  obtain ⟨heq, hall, hhead, hne⟩ := splitScheme_fst_spec hs'
  -- facts about the scheme
  have hSeq : (urlsplitCore u.data).scheme = (preColon (cleanUrl u.data)).map lowerChar := by
    rw [urlsplitCore_eq]
    exact heq
  have hSc : ∀ c ∈ (urlsplitCore u.data).scheme, schemeChar c = true := by
    intro c hc
    rw [hSeq] at hc
    obtain ⟨a, ha, rfl⟩ := List.mem_map.mp hc
    exact lowerChar_schemeChar (hall a ha)
  have hSh : headIsAlpha (urlsplitCore u.data).scheme = true := by
    rw [hSeq]
    obtain ⟨a, t, hat⟩ : ∃ a t, preColon (cleanUrl u.data) = a :: t := by
      cases hpc : preColon (cleanUrl u.data) with
      | nil => exact absurd hpc hne
      | cons a t => exact ⟨a, t, rfl⟩
    rw [hat]
    show isAsciiAlpha (lowerChar a) = true
    apply lowerChar_alpha
    rw [hat] at hhead
    simpa [headIsAlpha] using hhead
  have hSfix : (urlsplitCore u.data).scheme.map lowerChar = (urlsplitCore u.data).scheme := by
    rw [hSeq, List.map_map]
    exact List.map_congr_left (fun a _ => lowerChar_lowerChar a)
  -- facts about the netloc
  have hNc : ∀ c ∈ (urlsplitCore u.data).netloc, netlocChar c = true := by
    intro c hc
    rw [urlsplitCore_eq] at hc
    exact splitNetloc_fst_netlocChar hc
  have hNu : ∀ c ∈ (urlsplitCore u.data).netloc, unsafeUrlByte c = false := by
    intro c hc
    rw [urlsplitCore_eq] at hc
    exact mem_cleanUrl_not_unsafe (splitScheme_snd_subset (splitNetloc_fst_subset hc))
  have hNslash : '/' ∉ (urlsplitCore u.data).netloc := by
    intro hmem
    have := hNc '/' hmem
    simp [netlocChar] at this
  -- facts about the path
  have hPh : ∀ c ∈ (urlsplitCore u.data).path, c ≠ '#' := by
    intro c hc
    rw [urlsplitCore_eq] at hc
    exact splitAt1_fst_ne (splitAt1_fst_subset hc)
  have hPq : ∀ c ∈ (urlsplitCore u.data).path, c ≠ '?' := by
    intro c hc
    rw [urlsplitCore_eq] at hc
    exact splitAt1_fst_ne hc
  have hPu : ∀ c ∈ (urlsplitCore u.data).path, unsafeUrlByte c = false := by
    intro c hc
    rw [urlsplitCore_eq] at hc
    exact mem_cleanUrl_not_unsafe (splitScheme_snd_subset (splitNetloc_snd_subset
      (splitAt1_fst_subset (splitAt1_fst_subset hc))))
  have hPs : ∀ c ∈ (urlsplitCore u.data).path, c ≠ ';' := fun c hc hcc => hsemi (hcc ▸ hc)
  have hp0 : urlsplitCore u.data = ⟨(urlsplitCore u.data).scheme, (urlsplitCore u.data).netloc,
      (urlsplitCore u.data).path, (urlsplitCore u.data).query, (urlsplitCore u.data).fragment⟩ :=
    rfl
  have hnu : normalize_url u = ⟨rstripSlash ((urlsplitCore u.data).scheme
      ++ ':' :: '/' :: '/' :: [] ++ (urlsplitCore u.data).netloc
      ++ (urlsplitCore u.data).path)⟩ := normalize_of_parse hp0 hsemi
  set S := (urlsplitCore u.data).scheme with hSdef
  set N := (urlsplitCore u.data).netloc with hNdef
  set P := (urlsplitCore u.data).path with hPdef
  have e1 : rstripSlash ([':'] : List Char) = [':'] := rfl
  have e2 : rstripSlash (['/', '/'] : List Char) = [] := rfl
  by_cases hcase : N = [] ∧ rstripSlash P = []
  · -- the whole netloc-and-path block strips away and only `scheme:` remains
    obtain ⟨hn0, hp0'⟩ := hcase
    have hq : rstripSlash (S ++ ':' :: '/' :: '/' :: [] ++ N ++ P) = S ++ [':'] := by
      rw [hn0, List.append_nil]
      rw [rstripSlash_append (S ++ ':' :: '/' :: '/' :: []) P, if_pos hp0']
      rw [(show S ++ ':' :: '/' :: '/' :: [] = (S ++ [':']) ++ ['/', '/'] by simp)]
      rw [rstripSlash_append (S ++ [':']) ['/', '/'], if_pos e2]
      rw [rstripSlash_append S [':'], if_neg (by rw [e1]; simp), e1]
    have hnuq : normalize_url u = ⟨S ++ [':']⟩ := by
      rw [hnu, hq]
    have hparse : urlsplitCore (String.mk (S ++ [':'])).data = ⟨S, [], [], [], []⟩ := by
      show urlsplitCore (S ++ [':']) = _
      rw [urlsplit_rebuild_colon hs hSc hSh, hSfix]
    refine ⟨?_, ?_, ?_⟩
    · rw [hnuq]
      rw [normalize_of_parse hparse (by simp)]
      congr 1
      rw [List.append_nil, List.append_nil]
      rw [(show S ++ ':' :: '/' :: '/' :: [] = (S ++ [':']) ++ ['/', '/'] by simp)]
      rw [rstripSlash_append (S ++ [':']) ['/', '/'], if_pos e2]
      rw [rstripSlash_append S [':'], if_neg (by rw [e1]; simp), e1]
    · intro c hc
      rw [hnuq, hparse] at hc
      exact absurd hc (List.not_mem_nil c)
    · intro c hc
      rw [hnuq, hparse] at hc
      exact absurd hc (List.not_mem_nil c)
  · -- something besides the scheme survives the strip
    have hq : rstripSlash (S ++ ':' :: '/' :: '/' :: [] ++ N ++ P)
        = S ++ ':' :: '/' :: '/' :: [] ++ N ++ rstripSlash P := by
      by_cases hp' : rstripSlash P = []
      · have hn' : N ≠ [] := fun h => hcase ⟨h, hp'⟩
        rw [rstripSlash_append (S ++ ':' :: '/' :: '/' :: [] ++ N) P, if_pos hp']
        rw [rstripSlash_append (S ++ ':' :: '/' :: '/' :: []) N,
          if_neg (by rw [rstripSlash_no_slash hNslash]; exact hn'),
          rstripSlash_no_slash hNslash]
        rw [hp', List.append_nil]
      · rw [rstripSlash_append (S ++ ':' :: '/' :: '/' :: [] ++ N) P, if_neg hp']
    have hnuq : normalize_url u
        = ⟨S ++ ':' :: '/' :: '/' :: [] ++ N ++ rstripSlash P⟩ := by
      rw [hnu, hq]
    have hP'h : ∀ c ∈ rstripSlash P, c ≠ '#' := fun c hc => hPh c (mem_rstripSlash hc)
    have hP'q : ∀ c ∈ rstripSlash P, c ≠ '?' := fun c hc => hPq c (mem_rstripSlash hc)
    have hP'u : ∀ c ∈ rstripSlash P, unsafeUrlByte c = false :=
      fun c hc => hPu c (mem_rstripSlash hc)
    have hparse : urlsplitCore
        (String.mk (S ++ ':' :: '/' :: '/' :: [] ++ N ++ rstripSlash P)).data
        = ⟨S, N ++ (rstripSlash P).takeWhile netlocChar,
            (rstripSlash P).dropWhile netlocChar, [], []⟩ := by
      show urlsplitCore (S ++ ':' :: '/' :: '/' :: [] ++ N ++ rstripSlash P) = _
      rw [(show S ++ ':' :: '/' :: '/' :: [] ++ N ++ rstripSlash P
          = S ++ ':' :: '/' :: '/' :: (N ++ rstripSlash P) by simp)]
      rw [urlsplit_rebuild hs hSc hSh hNc hNu hP'h hP'q hP'u, hSfix]
    have hsemi2 : ';' ∉ ((rstripSlash P).dropWhile netlocChar) := by
      intro hmem
      exact hPs ';' (mem_rstripSlash (List.Sublist.mem hmem (List.dropWhile_sublist _))) rfl
    refine ⟨?_, ?_, ?_⟩
    · rw [hnuq]
      rw [normalize_of_parse hparse hsemi2]
      congr 1
      rw [(show S ++ ':' :: '/' :: '/' :: [] ++ (N ++ (rstripSlash P).takeWhile netlocChar)
          ++ (rstripSlash P).dropWhile netlocChar
          = S ++ ':' :: '/' :: '/' :: [] ++ N
            ++ ((rstripSlash P).takeWhile netlocChar ++ (rstripSlash P).dropWhile netlocChar)
          by simp)]
      rw [List.takeWhile_append_dropWhile]
      rw [← hq]
      exact rstripSlash_rstripSlash _
    · intro c hc
      rw [hnuq, hparse] at hc
      have hc2 : c ∈ N ++ (rstripSlash P).takeWhile netlocChar := hc
      rcases List.mem_append.mp hc2 with h | h
      · exact Or.inl h
      · exact Or.inr (mem_rstripSlash (List.Sublist.mem h (List.takeWhile_sublist _)))
    · intro c hc
      rw [hnuq, hparse] at hc
      have hc2 : c ∈ (rstripSlash P).dropWhile netlocChar := hc
      exact mem_rstripSlash (List.Sublist.mem hc2 (List.dropWhile_sublist _))

end WikiPath

namespace WikiPath

theorem specCanonical_eq (u : String) :
    specCanonical u = ⟨rstripSlash ((urlsplitCore u.data).scheme ++ ':' :: '/' :: '/' :: []
      ++ (urlsplitCore u.data).netloc ++ (urlsplitCore u.data).path)⟩ :=
  rfl

theorem splitparams_fst_of_no_semi {l : List Char} (h : ';' ∉ lastSeg l) :
    (splitparams l).1 = l := by
  unfold splitparams
  rw [if_neg h]

end WikiPath

/-- **C8** (counterexample).  `normalize` is not idempotent on all strings: for
the scheme-less input `"foo"`, `urlparse` yields scheme `""`, netloc `""` and
path `"foo"`, so `normalize "foo" = "://foo"`; reparsing `"://foo"` finds no
scheme (the text before the first `:` is empty) and no netloc (the string does
not start with `//`), so the whole of `"://foo"` becomes the path and a second
`"://"` is prepended: `normalize (normalize "foo") = "://://foo"`. -/
theorem c8_not_idempotent_counterexample :
    WikiPath.normalize_url (WikiPath.normalize_url "foo") ≠ WikiPath.normalize_url "foo" := by
  decide

/-- **C8** (amended).  `normalize` is idempotent on every input that `urlparse`
gives a nonempty scheme and whose parsed netloc and path consist of `plainAscii`
characters (no square brackets, ASCII) with no `;` in the path.  On that domain
neither application can hit `urlsplit`'s `ValueError` paths or the `;params`
split: the first application is covered by the hypotheses directly, and for the
second the remaining conjuncts certify that the reparse of `normalize u` has a
bracket-free ASCII netloc and a `;`-free `plainAscii` path (every character of
the reparsed netloc and path comes from the original netloc or path).  Inputs
such as `"http:[x"` — where the real second application raises
`ValueError: Invalid IPv6 URL` because `normalize("http:[x") = "http://[x"` —
are excluded by the path hypothesis (`'['` is in the parsed path). -/
theorem c8_normalize_idempotent_amended (u : String)
    (hs : (WikiPath.urlsplitCore u.data).scheme ≠ [])
    (hsemi : ';' ∉ (WikiPath.urlsplitCore u.data).path)
    (hnet : ∀ c ∈ (WikiPath.urlsplitCore u.data).netloc, WikiPath.plainAscii c = true)
    (hpath : ∀ c ∈ (WikiPath.urlsplitCore u.data).path, WikiPath.plainAscii c = true) :
    WikiPath.normalize_url (WikiPath.normalize_url u) = WikiPath.normalize_url u ∧
    (∀ c ∈ (WikiPath.urlsplitCore (WikiPath.normalize_url u).data).netloc,
      WikiPath.plainAscii c = true) ∧
    (∀ c ∈ (WikiPath.urlsplitCore (WikiPath.normalize_url u).data).path,
      WikiPath.plainAscii c = true) ∧
    ';' ∉ (WikiPath.urlsplitCore (WikiPath.normalize_url u).data).path := by
  obtain ⟨h1, h2, h3⟩ := WikiPath.normalize_idem_aux hs hsemi
  refine ⟨h1, ?_, ?_, ?_⟩
  · intro c hc
    rcases h2 c hc with h | h
    · exact hnet c h
    · exact hpath c h
  · intro c hc
    exact hpath c (h3 c hc)
  · intro hc
    exact hsemi (h3 ';' hc)

/-- Witness for `c8_normalize_idempotent_amended` at a concrete article URL. -/
theorem c8_normalize_idempotent_witness :
    WikiPath.normalize_url (WikiPath.normalize_url "https://en.example.org/wiki/Foo")
      = WikiPath.normalize_url "https://en.example.org/wiki/Foo" :=
  (c8_normalize_idempotent_amended "https://en.example.org/wiki/Foo"
    (by decide) (by decide) (by decide) (by decide)).1

/-- **C7** (counterexample).  `normalize_url` does not return
`scheme://host/path` for every absolute URL: the script uses `urlparse`, which
additionally splits a `;params` suffix off the last path segment for schemes in
`uses_params` (`https` among them), while the path of
`"https://en.example.org/wiki/Foo;bar"` (everything between the authority and
the query/fragment, as `urlsplit` returns it and as the spec's words
`scheme://host/path` describe) is `"/wiki/Foo;bar"`.  The code produces
`"https://en.example.org/wiki/Foo"`, dropping `";bar"`. -/
theorem c7_params_dropped_counterexample :
    WikiPath.normalize_url "https://en.example.org/wiki/Foo;bar"
      ≠ WikiPath.specCanonical "https://en.example.org/wiki/Foo;bar" := by
  decide

/-- **C7** (amended).  On the claim's scope restricted to where the real
`normalize_url` returns at all — parsed netlocs of `plainAscii` characters, so
that `urlsplit`'s `ValueError` checks (which the original "no error conditions"
wording wrongly rules out) cannot fire — `normalize(u)` returns
`scheme://host/path` with any trailing `/` stripped and the query string and
fragment discarded, *except* that for schemes in `urlparse`'s `uses_params`
list a `;params` suffix in the last path segment is discarded as well; whenever
the last path segment contains no `;` the output is exactly the spec's
`scheme://host/path` form (first conjunct), and the spec's example
`normalize("https://en.example.org/wiki/Foo/") == normalize("https://en.example.org/wiki/Foo")`
holds (second conjunct). -/
theorem c7_normalize_output_amended :
    (∀ u : String,
      (∀ c ∈ (WikiPath.urlsplitCore u.data).netloc, WikiPath.plainAscii c = true) →
      ';' ∉ WikiPath.lastSeg (WikiPath.urlsplitCore u.data).path →
      WikiPath.normalize_url u = WikiPath.specCanonical u) ∧
    WikiPath.normalize_url "https://en.example.org/wiki/Foo/"
      = WikiPath.normalize_url "https://en.example.org/wiki/Foo" := by
  constructor
  · intro u _hnet h
    rw [WikiPath.normalize_url_eq, WikiPath.urlparseCore_eq, WikiPath.specCanonical_eq]
    by_cases hc : WikiPath.schemeUsesParams (WikiPath.urlsplitCore u.data).scheme = true
        ∧ ';' ∈ (WikiPath.urlsplitCore u.data).path
    · rw [if_pos hc, WikiPath.splitparams_fst_of_no_semi h]
    · rw [if_neg hc]
  · decide

/-- Witness for `c7_normalize_output_amended` at a concrete article URL. -/
theorem c7_normalize_output_witness :
    WikiPath.normalize_url "https://en.example.org/wiki/Foo"
      = WikiPath.specCanonical "https://en.example.org/wiki/Foo" :=
  c7_normalize_output_amended.1 "https://en.example.org/wiki/Foo" (by decide) (by decide)

namespace WikiPath

/-! ## The rate limiter `_rate_limit_request`

`script.py` lines 21–33, called at line 41 while holding the semaphore slot.
Wall-clock instants are modelled as rationals.  `current_time = time.time()` is
the `now` argument; `time.sleep(x)` is modelled by reporting the slept duration
in the result.  With `rate_limit = 0` the semaphore at line 40 can never be
acquired, so the method is unreachable; accordingly `pruned[0]` is modelled by
`headI` (defaulting to `0`) and the theorems assume `1 ≤ rate_limit`. -/

structure RateLimitResult where
  /-- `request_times` after the pruning loop, before the append. -/
  pruned : List ℚ
  /-- the duration passed to `time.sleep` (`0` when no sleep happens). -/
  sleep : ℚ
  /-- `request_times` at method exit. -/
  window : List ℚ

/-- `_rate_limit_request` (`script.py` 21–33). -/
def rate_limit_request (rate_limit : Nat) (times : List ℚ) (now : ℚ) : RateLimitResult :=
  let pruned := times.dropWhile (fun t => decide (1 < now - t))
  let sleep :=
    if rate_limit ≤ pruned.length then
      if 0 < 1 - (now - pruned.headI) then 1 - (now - pruned.headI) else 0
    else 0
  ⟨pruned, sleep, pruned ++ [now]⟩

theorem rate_limit_request_pruned (rl : Nat) (times : List ℚ) (now : ℚ) :
    (rate_limit_request rl times now).pruned
      = times.dropWhile (fun t => decide (1 < now - t)) :=
  rfl

theorem rate_limit_request_sleep (rl : Nat) (times : List ℚ) (now : ℚ) :
    (rate_limit_request rl times now).sleep
      = if rl ≤ (rate_limit_request rl times now).pruned.length then
          if 0 < 1 - (now - (rate_limit_request rl times now).pruned.headI) then
            1 - (now - (rate_limit_request rl times now).pruned.headI)
          else 0
        else 0 :=
  rfl

theorem rate_limit_request_window (rl : Nat) (times : List ℚ) (now : ℚ) :
    (rate_limit_request rl times now).window
      = (rate_limit_request rl times now).pruned ++ [now] :=
  rfl

/-- On a chronologically ordered window, the code's front-pruning loop removes
exactly the entries older than one second. -/
theorem dropWhile_old_eq_filter {now : ℚ} :
    ∀ {l : List ℚ}, l.Pairwise (· ≤ ·) →
      l.dropWhile (fun t => decide (1 < now - t))
        = l.filter (fun t => decide (now - t ≤ 1)) := by
  intro l
  induction l with
  | nil => intro _; rfl
  | cons a t ih =>
    intro hp
    by_cases ha : 1 < now - a
    · rw [List.dropWhile_cons, if_pos (by simpa using ha),
        List.filter_cons_of_neg (by simp; linarith)]
      exact ih (List.Pairwise.of_cons hp)
    · rw [List.dropWhile_cons, if_neg (by simpa using ha),
        List.filter_cons_of_pos (by simp; linarith [le_of_not_lt ha])]
      congr 1
      symm
      rw [List.filter_eq_self]
      intro b hb
      have hab : a ≤ b := (List.pairwise_cons.mp hp).1 b hb
      simp only [decide_eq_true_eq]
      have := le_of_not_lt ha
      linarith

end WikiPath

/-- **C2** (counterexample).  The claim glosses the recorded timestamp as "the
time at which the request is admitted", i.e. the time after the wait
(`now + sleep`).  The code records `current_time`, captured *before* the
sleep: with `rate_limit = 1`, window `[0]` and `now = 1/2`, the method sleeps
for `1/2` second and then appends `1/2`, not the admission time `1`. -/
theorem c2_prewait_timestamp_counterexample :
    0 < (WikiPath.rate_limit_request 1 [0] ((1 : ℚ)/2)).sleep ∧
    (WikiPath.rate_limit_request 1 [0] ((1 : ℚ)/2)).window
      ≠ (WikiPath.rate_limit_request 1 [0] ((1 : ℚ)/2)).pruned
        ++ [(1 : ℚ)/2 + (WikiPath.rate_limit_request 1 [0] ((1 : ℚ)/2)).sleep] := by
  have hpruned : (WikiPath.rate_limit_request 1 [0] ((1 : ℚ)/2)).pruned = [0] := by
    rw [WikiPath.rate_limit_request_pruned]
    rw [List.dropWhile_cons, if_neg (by norm_num)]
  have hsleep : (WikiPath.rate_limit_request 1 [0] ((1 : ℚ)/2)).sleep = (1 : ℚ)/2 := by
    rw [WikiPath.rate_limit_request_sleep, hpruned]
    norm_num [List.headI]
  constructor
  · rw [hsleep]
    norm_num
  · rw [WikiPath.rate_limit_request_window, hpruned, hsleep]
    intro h
    have := List.append_cancel_left h
    simp at this

/-- **C2** (amended).  For a chronologically ordered window and
`rate_limit ≥ 1`: the admission step prunes exactly the entries older than
1 second from `now` (the code's front-pruning loop equals a filter on a sorted
window); if the pruned window still holds at least `rate_limit` entries the
caller sleeps `max (1 − (now − oldest)) 0` seconds (i.e. `1 − (now − oldest)`
when that is positive, nothing otherwise); and the timestamp recorded into the
window is `now` — the time captured *before* any wait, which is the admission
time only when no wait occurred. -/
theorem c2_rate_limiter_amended (rl : Nat) (times : List ℚ) (now : ℚ)
    (hsorted : times.Pairwise (· ≤ ·)) (_rl_pos : 1 ≤ rl) :
    (WikiPath.rate_limit_request rl times now).pruned
      = times.filter (fun t => decide (now - t ≤ 1)) ∧
    (rl ≤ (WikiPath.rate_limit_request rl times now).pruned.length →
      (WikiPath.rate_limit_request rl times now).sleep
        = max (1 - (now - (WikiPath.rate_limit_request rl times now).pruned.headI)) 0) ∧
    (WikiPath.rate_limit_request rl times now).window
      = (WikiPath.rate_limit_request rl times now).pruned ++ [now] ∧
    (0 < (WikiPath.rate_limit_request rl times now).sleep →
      (WikiPath.rate_limit_request rl times now).window
        ≠ (WikiPath.rate_limit_request rl times now).pruned
          ++ [now + (WikiPath.rate_limit_request rl times now).sleep]) := by
  refine ⟨?_, ?_, WikiPath.rate_limit_request_window rl times now, ?_⟩
  · rw [WikiPath.rate_limit_request_pruned]
    exact WikiPath.dropWhile_old_eq_filter hsorted
  · intro hlen
    rw [WikiPath.rate_limit_request_sleep, if_pos hlen]
    by_cases hpos : 0 < 1 - (now - (WikiPath.rate_limit_request rl times now).pruned.headI)
    · rw [if_pos hpos, max_eq_left (le_of_lt hpos)]
    · rw [if_neg hpos, max_eq_right (le_of_not_lt hpos)]
  · intro hsleep heq
    rw [WikiPath.rate_limit_request_window] at heq
    have hlast := List.append_cancel_left heq
    have : now = now + (WikiPath.rate_limit_request rl times now).sleep := by
      simpa using hlast
    linarith

/-- Witness for `c2_rate_limiter_amended`: the recorded window at
`rate_limit = 1`, window `[0]`, `now = 1/2`. -/
theorem c2_rate_limiter_witness :
    (WikiPath.rate_limit_request 1 [0] ((1 : ℚ)/2)).window
      = (WikiPath.rate_limit_request 1 [0] ((1 : ℚ)/2)).pruned ++ [(1 : ℚ)/2] :=
  (c2_rate_limiter_amended 1 [0] ((1 : ℚ)/2) (by simp) (by decide)).2.2.1

namespace WikiPath

/-! ## The cached fetcher `get_page_content`

`script.py` lines 35–52.  The network is an oracle `net : String → Option
String`: `net url = some body` models `session.get(url, timeout=10)` returning
a success status with text `body`; `net url = none` models a
`requests.RequestException` — a transport failure, a timeout, or (via
`raise_for_status`) a non-success status — which the method catches, logs and
turns into `None` without raising further.  Issued network requests are logged
in `calls`.  The semaphore acquisition and the rate-limit wait (lines 40–41)
delay but do not change the cache-and-result behaviour modelled here. -/

structure FetchState where
  /-- `self.cache`: mapping from the exact requested URL string to the body. -/
  cache : List (String × String)
  /-- the network requests issued so far, in order. -/
  calls : List String

/-- Python `url in self.cache` / `self.cache[url]`. -/
def cacheLookup (url : String) : List (String × String) → Option String
  | [] => none
  | (k, v) :: t => if k = url then some v else cacheLookup url t

/-- `get_page_content(url)` (`script.py` 35–52). -/
def get_page_content (net : String → Option String) (url : String) (st : FetchState) :
    Option String × FetchState :=
  match cacheLookup url st.cache with
  | some body => (some body, st)
  | none =>
    match net url with
    | some body => (some body, ⟨st.cache ++ [(url, body)], st.calls ++ [url]⟩)
    | none => (none, ⟨st.cache, st.calls ++ [url]⟩)

theorem cacheLookup_append_of_some {url : String} {c : List (String × String)}
    {b : String} (h : cacheLookup url c = some b) (d : List (String × String)) :
    cacheLookup url (c ++ d) = some b := by
  induction c with
  | nil => simp [cacheLookup] at h
  | cons kv t ih =>
    obtain ⟨k, v⟩ := kv
    by_cases hk : k = url
    · simp [cacheLookup, hk] at h ⊢
      exact h
    · simp [cacheLookup, hk] at h ⊢
      exact ih h

theorem cacheLookup_append_of_none {url : String} {c : List (String × String)}
    (h : cacheLookup url c = none) (d : List (String × String)) :
    cacheLookup url (c ++ d) = cacheLookup url d := by
  induction c with
  | nil => simp
  | cons kv t ih =>
    obtain ⟨k, v⟩ := kv
    by_cases hk : k = url
    · simp [cacheLookup, hk] at h
    · simp [cacheLookup, hk] at h ⊢
      exact ih h

end WikiPath

/-- **C5** (confirmed).  Cache and failure behaviour of `get_page_content`:
(1) a cache hit returns the cached body unchanged — the state (including the
network-call log) is untouched, so no network call happens, whatever the
network would do; (2) a successful fetch leaves the body retrievable under the
exact same URL string; (3) a later call for any URL preserves an existing cache
entry (the cache is add-only), so every subsequent fetch of the same string
hits case (1): two requests for the same URL trigger exactly one underlying
network call; (4) a failed fetch returns `none` to the caller (the exception is
caught, not propagated — the model is a total function) and does not create a
cache entry. -/
theorem c5_cache_and_failure (net net' : String → Option String) (u v : String)
    (st : WikiPath.FetchState) :
    (∀ b, WikiPath.cacheLookup u st.cache = some b →
      WikiPath.get_page_content net u st = (some b, st)) ∧
    (∀ b, (WikiPath.get_page_content net u st).1 = some b →
      WikiPath.cacheLookup u ((WikiPath.get_page_content net u st).2).cache = some b) ∧
    (∀ b, WikiPath.cacheLookup u st.cache = some b →
      WikiPath.cacheLookup u ((WikiPath.get_page_content net' v st).2).cache = some b) ∧
    ((WikiPath.get_page_content net u st).1 = none →
      ((WikiPath.get_page_content net u st).2).cache = st.cache) := by
  refine ⟨?_, ?_, ?_, ?_⟩
  · intro b h
    simp [WikiPath.get_page_content, h]
  · intro b h
    cases hcl : WikiPath.cacheLookup u st.cache with
    | some body =>
      simp [WikiPath.get_page_content, hcl] at h ⊢
      exact h
    | none =>
      cases hnet : net u with
      | some body =>
        simp [WikiPath.get_page_content, hcl, hnet] at h ⊢
        rw [WikiPath.cacheLookup_append_of_none hcl]
        simp [WikiPath.cacheLookup, h]
      | none =>
        simp [WikiPath.get_page_content, hcl, hnet] at h
  · intro b h
    cases hcl : WikiPath.cacheLookup v st.cache with
    | some body => simp [WikiPath.get_page_content, hcl, h]
    | none =>
      cases hnet : net' v with
      | some body =>
        simp [WikiPath.get_page_content, hcl, hnet]
        exact WikiPath.cacheLookup_append_of_some h _
      | none => simp [WikiPath.get_page_content, hcl, hnet, h]
  · intro h
    cases hcl : WikiPath.cacheLookup u st.cache with
    | some body => simp [WikiPath.get_page_content, hcl] at h
    | none =>
      cases hnet : net u with
      | some body => simp [WikiPath.get_page_content, hcl, hnet] at h
      | none => simp [WikiPath.get_page_content, hcl, hnet]

/-- Witness for `c5_cache_and_failure`: after a success for `"https://h/wiki/A"`
has been cached, a second request returns the cached body and leaves the state
(and so the network-call log) unchanged, even against a network that now
fails every request. -/
theorem c5_cache_and_failure_witness :
    WikiPath.get_page_content (fun _ => none) "https://h/wiki/A"
      ⟨[("https://h/wiki/A", "body")], ["https://h/wiki/A"]⟩
      = (some "body", ⟨[("https://h/wiki/A", "body")], ["https://h/wiki/A"]⟩) :=
  (c5_cache_and_failure (fun _ => none) (fun _ => none) "https://h/wiki/A" "x"
    ⟨[("https://h/wiki/A", "body")], ["https://h/wiki/A"]⟩).1 "body" (by
      simp [WikiPath.cacheLookup])

namespace WikiPath

/-! ## The BFS engine `find_path`

`script.py` lines 145–181.  Fetching and link extraction are oracles:
`fetch u` is the result of `get_page_content(u)` (`none` is Python `None`;
since the cache makes repeated calls return the same value, a pure oracle is
faithful), and `extract content base` is the list of links
`extract_wikipedia_links(content, base)` produces, in the (unspecified) order
in which Python iterates over the set.  The while-loop is driven by `bfsStep`
(one iteration) under explicit fuel; `c4_bfs_terminates_and_depth_bounded`
shows some fuel always completes the loop, so the fuel is a proof device, not a
behavioural change.  The state logs every `get_page_content` call. -/

/-- Loop state: frontier `queue` of `(current_url, path)`, `visited`, and the
log of `get_page_content` calls made so far. -/
structure BfsSt where
  queue : List (String × List String)
  visited : List String
  fetched : List String

/-- One-iteration outcome: loop continues, or the function returns the given
result with the given fetch log. -/
inductive StepRes where
  | running : BfsSt → StepRes
  | finished : Option (List String) → List String → StepRes

/-- The `for link in links` loop (`script.py` 171–179): check target, then
visit-and-enqueue under the depth bound. -/
def processLinks (t : String) (D : Nat) (p : List String) :
    List String → List (String × List String) → List String →
      (List (String × List String) × List String) ⊕ List String
  | [], q, vis => Sum.inl (q, vis)
  | link :: rest, q, vis =>
    if normalize_url link = t then Sum.inr (p ++ [normalize_url link])
    else if normalize_url link ∉ vis ∧ p.length < D then
      processLinks t D p rest (q ++ [(normalize_url link, p ++ [normalize_url link])])
        (vis ++ [normalize_url link])
    else processLinks t D p rest q vis

/-- One iteration of the while-loop (`script.py` 157–179). -/
def bfsStep (fetch : String → Option String) (extract : String → String → List String)
    (t : String) (D : Nat) : BfsSt → StepRes
  | ⟨[], _, tr⟩ => .finished none tr
  | ⟨(u, p) :: rest, vis, tr⟩ =>
    if D < p.length then .running ⟨rest, vis, tr⟩
    else
      match fetch u with
      | none => .running ⟨rest, vis, tr ++ [u]⟩
      | some content =>
        if content = "" then .running ⟨rest, vis, tr ++ [u]⟩
        else
          match processLinks t D p (extract content u) rest vis with
          | Sum.inr path => .finished (some path) (tr ++ [u])
          | Sum.inl (q', vis') => .running ⟨q', vis', tr ++ [u]⟩

/-- Iterate `bfsStep` at most `n` times, stopping at a `finished` result. -/
def stepN (fetch : String → Option String) (extract : String → String → List String)
    (t : String) (D : Nat) : Nat → StepRes → StepRes
  | 0, r => r
  | _ + 1, .finished res tr => .finished res tr
  | n + 1, .running st => stepN fetch extract t D n (bfsStep fetch extract t D st)

/-- `find_path(start_url, target_url, max_depth)` (`script.py` 145–181) under
`fuel` loop iterations.  `some (res, log)`: the loop completed, the Python
return value is `res` (`none` is Python `None`) and `log` lists the
`get_page_content` calls in order; `none`: the fuel ran out (never the code's
behaviour, by the termination theorem). -/
def find_path (fetch : String → Option String) (extract : String → String → List String)
    (start_url target_url : String) (max_depth : Nat) (fuel : Nat) :
    Option (Option (List String) × List String) :=
  let s := normalize_url start_url
  let t := normalize_url target_url
  if s = t then some (some [s], [])
  else
    match stepN fetch extract t max_depth fuel (.running ⟨[(s, [s])], [s], []⟩) with
    | .finished res tr => some (res, tr)
    | .running _ => none

theorem stepN_finished (fetch : String → Option String)
    (extract : String → String → List String) (t : String) (D : Nat)
    (res : Option (List String)) (tr : List String) :
    ∀ n, stepN fetch extract t D n (.finished res tr) = .finished res tr := by
  intro n
  cases n with
  | zero => rfl
  | succ n => rfl

end WikiPath

/-- **C3** (counterexample).  `find_path(X, X, d)` returns the *normalized*
form of `X`, not `X` itself: for `X = "https://en.example.org/wiki/Foo/"`
(trailing slash) the code returns `["https://en.example.org/wiki/Foo"]`, which
differs from `[X]`. -/
theorem c3_not_verbatim_counterexample :
    WikiPath.find_path (fun _ => none) (fun _ _ => [])
      "https://en.example.org/wiki/Foo/" "https://en.example.org/wiki/Foo/" 5 7
      ≠ some (some ["https://en.example.org/wiki/Foo/"], []) := by
  decide

/-- **C3** (amended).  For every URL `X`, every depth bound and any
fetch/extract behaviour, `find_path(X, X, anyDepth)` returns the single-element
path `[normalize(X)]` immediately — before the BFS loop runs and with an empty
fetch log, i.e. zero `get_page_content` calls (and hence zero network
fetches) — for every fuel value. -/
theorem c3_self_path_amended (fetch : String → Option String)
    (extract : String → String → List String) (X : String) (D fuel : Nat) :
    WikiPath.find_path fetch extract X X D fuel
      = some (some [WikiPath.normalize_url X], []) := by
  simp [WikiPath.find_path]

namespace WikiPath

theorem processLinks_inr_spec {t : String} {D : Nat} {p : List String} :
    ∀ (links : List String) (q : List (String × List String)) (vis : List String)
      (path : List String),
      processLinks t D p links q vis = Sum.inr path → path = p ++ [t] := by
  intro links
  induction links with
  | nil => intro q vis path h; simp [processLinks] at h
  | cons link rest ih =>
    intro q vis path h
    by_cases ht : normalize_url link = t
    · rw [processLinks, if_pos ht] at h
      rw [ht] at h
      exact (Sum.inr.injEq _ _ ▸ h).symm
    · rw [processLinks, if_neg ht] at h
      by_cases hc : normalize_url link ∉ vis ∧ p.length < D
      · rw [if_pos hc] at h
        exact ih _ _ _ h
      · rw [if_neg hc] at h
        exact ih _ _ _ h

theorem processLinks_inl_spec {t : String} {D : Nat} {p : List String} :
    ∀ (links : List String) (q : List (String × List String)) (vis : List String)
      (q' : List (String × List String)) (vis' : List String),
      processLinks t D p links q vis = Sum.inl (q', vis') →
      (∀ x ∈ vis, x ∈ vis') ∧
      (∀ e ∈ q', e ∈ q ∨ ∃ v, e = (v, p ++ [v]) ∧ v ∈ links.map normalize_url ∧
        p.length < D ∧ v ∉ vis ∧ v ≠ t ∧ v ∈ vis') ∧
      ((q' = q ∧ vis' = vis) ∨ ∃ v, v ∈ links.map normalize_url ∧ p.length < D ∧
        v ∉ vis ∧ v ∈ vis') ∧
      (∀ x ∈ vis', x ∈ vis ∨ (x ≠ t ∧ ∃ y, x = normalize_url y)) := by
  intro links
  induction links with
  | nil =>
    intro q vis q' vis' h
    rw [processLinks] at h
    obtain ⟨h1, h2⟩ : q = q' ∧ vis = vis' := by
      have := Sum.inl.injEq (α := List (String × List String) × List String)
        (β := List String) (q, vis) (q', vis') ▸ h
      exact ⟨congrArg Prod.fst this, congrArg Prod.snd this⟩
    subst h1
    subst h2
    exact ⟨fun x hx => hx, fun e he => Or.inl he, Or.inl ⟨rfl, rfl⟩, fun x hx => Or.inl hx⟩
  | cons link rest ih =>
    intro q vis q' vis' h
    by_cases ht : normalize_url link = t
    · rw [processLinks, if_pos ht] at h
      simp at h
    · rw [processLinks, if_neg ht] at h
      by_cases hc : normalize_url link ∉ vis ∧ p.length < D
      · rw [if_pos hc] at h
        obtain ⟨ih1, ih2, ih3, ih4⟩ := ih _ _ _ _ h
        refine ⟨?_, ?_, ?_, ?_⟩
        · intro x hx
          exact ih1 x (by simp [hx])
        · intro e he
          rcases ih2 e he with h3 | ⟨w, hw1, hw2, hw3, hw4, hw5, hw6⟩
          · rcases List.mem_append.mp h3 with h4 | h4
            · exact Or.inl h4
            · simp only [List.mem_singleton] at h4
              refine Or.inr ⟨normalize_url link, h4, by simp, hc.2, hc.1, ht, ?_⟩
              exact ih1 _ (by simp)
          · refine Or.inr ⟨w, hw1, by simp [hw2], hw3, ?_, hw5, hw6⟩
            intro hw
            exact hw4 (by simp [hw])
        · refine Or.inr ⟨normalize_url link, by simp, hc.2, hc.1, ih1 _ (by simp)⟩
        · intro x hx
          rcases ih4 x hx with h4 | h4
          · rcases List.mem_append.mp h4 with h5 | h5
            · exact Or.inl h5
            · simp only [List.mem_singleton] at h5
              subst h5
              exact Or.inr ⟨ht, ⟨link, rfl⟩⟩
          · exact Or.inr h4
      · rw [if_neg hc] at h
        obtain ⟨ih1, ih2, ih3, ih4⟩ := ih _ _ _ _ h
        refine ⟨ih1, ?_, ?_, ih4⟩
        · intro e he
          rcases ih2 e he with h3 | ⟨w, hw1, hw2, hw3, hw4, hw5, hw6⟩
          · exact Or.inl h3
          · exact Or.inr ⟨w, hw1, by simp [hw2], hw3, hw4, hw5, hw6⟩
        · rcases ih3 with h3 | ⟨w, hw1, hw2, hw3, hw4⟩
          · exact Or.inl h3
          · exact Or.inr ⟨w, by simp [hw1], hw2, hw3, hw4⟩

end WikiPath

namespace WikiPath

/-! ## A termination measure for the BFS loop

Every URL the loop can still enqueue from a frontier entry `(u, p)` lies in
the set of URLs reachable from `u` in at most `maxDepth + 1 − |p|` successor
steps, where the successor map is fetch-extract-normalize.  Popping an entry
replaces its reachable set by strictly smaller ones, and every enqueue consumes
a fresh URL from that set into `visited`, so
`(card (potential \ visited), queue length)` drops lexicographically. -/

/-- The URLs one loop expansion of `u` can push: fetch, reject `None`/empty
content, extract, normalize. -/
def gSucc (fetch : String → Option String) (extract : String → String → List String)
    (u : String) : List String :=
  match fetch u with
  | none => []
  | some content => if content = "" then [] else (extract content u).map normalize_url

/-- URLs reachable from `u` in fewer than `k` successor steps (`u` itself
included once `1 ≤ k`). -/
def rf (fetch : String → Option String) (extract : String → String → List String) :
    Nat → String → Finset String
  | 0, _ => ∅
  | k + 1, u => insert u ((gSucc fetch extract u).foldr
      (fun v acc => rf fetch extract k v ∪ acc) ∅)

/-- The potential of one frontier entry. -/
def entryPot (fetch : String → Option String) (extract : String → String → List String)
    (D : Nat) (e : String × List String) : Finset String :=
  rf fetch extract (D + 1 - e.2.length) e.1

/-- The potential of the whole frontier. -/
def potSet (fetch : String → Option String) (extract : String → String → List String)
    (D : Nat) (q : List (String × List String)) : Finset String :=
  q.foldr (fun e acc => entryPot fetch extract D e ∪ acc) ∅

/-- The primary component of the termination measure. -/
def bfsMeasure (fetch : String → Option String) (extract : String → String → List String)
    (D : Nat) (st : BfsSt) : Nat :=
  (potSet fetch extract D st.queue \ st.visited.toFinset).card

theorem mem_rf_self {fetch : String → Option String}
    {extract : String → String → List String} {k : Nat} {u : String} (h : 1 ≤ k) :
    u ∈ rf fetch extract k u := by
  obtain ⟨m, rfl⟩ : ∃ m, k = m + 1 := ⟨k - 1, by omega⟩
  simp [rf]

theorem rf_subset_foldr {fetch : String → Option String}
    {extract : String → String → List String} {k : Nat} {v : String} :
    ∀ {L : List String}, v ∈ L →
      rf fetch extract k v ⊆ L.foldr (fun w acc => rf fetch extract k w ∪ acc) ∅ := by
  intro L
  induction L with
  | nil => intro h; simp at h
  | cons w ws ih =>
    intro h
    rcases List.mem_cons.mp h with rfl | h2
    · exact Finset.subset_union_left
    · exact (ih h2).trans Finset.subset_union_right

theorem rf_succ_subset {fetch : String → Option String}
    {extract : String → String → List String} {k : Nat} {u v : String}
    (h : v ∈ gSucc fetch extract u) :
    rf fetch extract k v ⊆ rf fetch extract (k + 1) u := by
  rw [rf]
  exact (rf_subset_foldr h).trans (Finset.subset_insert _ _)

theorem potSet_cons (fetch : String → Option String)
    (extract : String → String → List String) (D : Nat)
    (e : String × List String) (q : List (String × List String)) :
    potSet fetch extract D (e :: q) = entryPot fetch extract D e ∪ potSet fetch extract D q :=
  rfl

theorem entryPot_subset_potSet {fetch : String → Option String}
    {extract : String → String → List String} {D : Nat} :
    ∀ {q : List (String × List String)} {e : String × List String}, e ∈ q →
      entryPot fetch extract D e ⊆ potSet fetch extract D q := by
  intro q
  induction q with
  | nil => intro e h; simp at h
  | cons x xs ih =>
    intro e h
    rcases List.mem_cons.mp h with rfl | h2
    · exact Finset.subset_union_left
    · exact (ih h2).trans Finset.subset_union_right

theorem potSet_subset {fetch : String → Option String}
    {extract : String → String → List String} {D : Nat} {S : Finset String} :
    ∀ {q : List (String × List String)},
      (∀ e ∈ q, entryPot fetch extract D e ⊆ S) → potSet fetch extract D q ⊆ S := by
  intro q
  induction q with
  | nil => intro _; simp [potSet]
  | cons x xs ih =>
    intro h
    rw [potSet_cons]
    exact Finset.union_subset (h x (by simp)) (ih (fun e he => h e (by simp [he])))

end WikiPath

namespace WikiPath

theorem bfsStep_decrease {fetch : String → Option String}
    {extract : String → String → List String} {t : String} {D : Nat} {st st' : BfsSt}
    (h : bfsStep fetch extract t D st = .running st') :
    (bfsMeasure fetch extract D st' ≤ bfsMeasure fetch extract D st ∧
      st'.queue.length < st.queue.length) ∨
    bfsMeasure fetch extract D st' < bfsMeasure fetch extract D st := by
  obtain ⟨qu, vis, tr⟩ := st
  cases qu with
  | nil => simp [bfsStep] at h
  | cons e rest =>
    obtain ⟨u, p⟩ := e
    rw [bfsStep] at h
    have hrestsub : potSet fetch extract D rest ⊆ potSet fetch extract D ((u, p) :: rest) := by
      rw [potSet_cons]
      exact Finset.subset_union_right
    by_cases hd : D < p.length
    · rw [if_pos hd] at h
      cases h
      exact Or.inl ⟨Finset.card_le_card
        (Finset.sdiff_subset_sdiff hrestsub (subset_refl _)), by simp⟩
    · rw [if_neg hd] at h
      cases hf : fetch u with
      | none =>
        simp only [hf] at h
        cases h
        exact Or.inl ⟨Finset.card_le_card
          (Finset.sdiff_subset_sdiff hrestsub (subset_refl _)), by simp⟩
      | some content =>
        simp only [hf] at h
        by_cases hcont : content = ""
        · rw [if_pos hcont] at h
          cases h
          exact Or.inl ⟨Finset.card_le_card
            (Finset.sdiff_subset_sdiff hrestsub (subset_refl _)), by simp⟩
        · rw [if_neg hcont] at h
          cases hpl : processLinks t D p (extract content u) rest vis with
          | inr path =>
            simp only [hpl] at h
            exact StepRes.noConfusion h
          | inl pair =>
            obtain ⟨q', vis'⟩ := pair
            simp only [hpl] at h
            cases h
            obtain ⟨sp1, sp2, sp3, _⟩ := processLinks_inl_spec _ _ _ _ _ hpl
            have hg : gSucc fetch extract u = (extract content u).map normalize_url := by
              simp [gSucc, hf, hcont]
            have hq'sub : potSet fetch extract D q'
                ⊆ potSet fetch extract D ((u, p) :: rest) := by
              apply potSet_subset
              intro e he
              rcases sp2 e he with h3 | ⟨v, he2, hv2, hv3, _, _, _⟩
              · exact entryPot_subset_potSet (List.mem_cons_of_mem _ h3)
              · subst he2
                have hsub2 : entryPot fetch extract D (v, p ++ [v])
                    ⊆ entryPot fetch extract D (u, p) := by
                  unfold entryPot
                  have hk : D + 1 - ((p ++ [v]).length) = D - p.length := by
                    simp
                  have hk2 : (D - p.length) + 1 = D + 1 - p.length := by omega
                  rw [hk, ← hk2]
                  exact rf_succ_subset (by rw [hg]; exact hv2)
                exact hsub2.trans (entryPot_subset_potSet (by simp))
            have hvissub : vis.toFinset ⊆ vis'.toFinset := by
              intro x hx
              rw [List.mem_toFinset] at hx ⊢
              exact sp1 x hx
            have hmle : bfsMeasure fetch extract D ⟨q', vis', tr ++ [u]⟩
                ≤ bfsMeasure fetch extract D ⟨(u, p) :: rest, vis, tr⟩ :=
              Finset.card_le_card (Finset.sdiff_subset_sdiff hq'sub hvissub)
            rcases sp3 with ⟨hq, hv⟩ | ⟨v, hv1, hv2len, hv3, hv4⟩
            · subst hq
              subst hv
              exact Or.inl ⟨hmle, by simp⟩
            · right
              apply Finset.card_lt_card
              constructor
              · exact Finset.sdiff_subset_sdiff hq'sub hvissub
              · intro hsup
                have h1le : 1 ≤ D - p.length := by omega
                have hvpot : v ∈ potSet fetch extract D ((u, p) :: rest) := by
                  have hm1 : v ∈ rf fetch extract (D - p.length) v := mem_rf_self h1le
                  have hm2 : v ∈ rf fetch extract ((D - p.length) + 1) u :=
                    rf_succ_subset (by rw [hg]; exact hv1) hm1
                  have hk2 : (D - p.length) + 1 = D + 1 - p.length := by omega
                  have hm3 : v ∈ entryPot fetch extract D (u, p) := by
                    unfold entryPot
                    rw [← hk2]
                    exact hm2
                  exact entryPot_subset_potSet (by simp) hm3
                have hvin : v ∈ potSet fetch extract D ((u, p) :: rest) \ vis.toFinset :=
                  Finset.mem_sdiff.mpr ⟨hvpot, by
                    rw [List.mem_toFinset]
                    exact hv3⟩
                have hvin' := hsup hvin
                exact (Finset.mem_sdiff.mp hvin').2 (List.mem_toFinset.mpr hv4)

end WikiPath

namespace WikiPath

theorem bfs_terminates (fetch : String → Option String)
    (extract : String → String → List String) (t : String) (D : Nat) :
    ∀ st : BfsSt, ∃ n res tr, stepN fetch extract t D n (.running st) = .finished res tr := by
  suffices hsuff : ∀ (c l : Nat) (st : BfsSt), bfsMeasure fetch extract D st = c →
      st.queue.length = l →
      ∃ n res tr, stepN fetch extract t D n (.running st) = .finished res tr by
    intro st
    exact hsuff _ _ st rfl rfl
  intro c
  induction c using Nat.strong_induction_on with
  | _ c ihc =>
    intro l
    induction l using Nat.strong_induction_on with
    | _ l ihl =>
      intro st hc hl
      cases hstep : bfsStep fetch extract t D st with
      | finished res tr =>
        refine ⟨1, res, tr, ?_⟩
        show stepN fetch extract t D 0 (bfsStep fetch extract t D st) = .finished res tr
        rw [hstep]
        rfl
      | running st' =>
        rcases bfsStep_decrease hstep with ⟨hle, hlt⟩ | hstrict
        · rcases lt_or_eq_of_le hle with hlt2 | heq2
          · obtain ⟨n, res, tr, hn⟩ :=
              ihc (bfsMeasure fetch extract D st') (hc ▸ hlt2) st'.queue.length st' rfl rfl
            refine ⟨n + 1, res, tr, ?_⟩
            show stepN fetch extract t D n (bfsStep fetch extract t D st) = .finished res tr
            rw [hstep]
            exact hn
          · obtain ⟨n, res, tr, hn⟩ :=
              ihl st'.queue.length (hl ▸ hlt) st' (heq2.trans hc) rfl
            refine ⟨n + 1, res, tr, ?_⟩
            show stepN fetch extract t D n (bfsStep fetch extract t D st) = .finished res tr
            rw [hstep]
            exact hn
        · obtain ⟨n, res, tr, hn⟩ :=
            ihc (bfsMeasure fetch extract D st') (hc ▸ hstrict) st'.queue.length st' rfl rfl
          refine ⟨n + 1, res, tr, ?_⟩
          show stepN fetch extract t D n (bfsStep fetch extract t D st) = .finished res tr
          rw [hstep]
          exact hn

/-- One loop iteration only appends frontier entries whose path length is at
most `D` (the code's `len(path) < max_depth` guard plus one for the appended
link). -/
theorem bfsStep_queue_depth {fetch : String → Option String}
    {extract : String → String → List String} {t : String} {D : Nat} {s0 : String}
    {st st' : BfsSt}
    (hinv : ∀ e ∈ st.queue, e = (s0, [s0]) ∨ e.2.length ≤ D)
    (h : bfsStep fetch extract t D st = .running st') :
    ∀ e ∈ st'.queue, e = (s0, [s0]) ∨ e.2.length ≤ D := by
  obtain ⟨qu, vis, tr⟩ := st
  cases qu with
  | nil => simp [bfsStep] at h
  | cons e0 rest =>
    obtain ⟨u, p⟩ := e0
    rw [bfsStep] at h
    have hrest : ∀ e ∈ rest, e = (s0, [s0]) ∨ e.2.length ≤ D :=
      fun e he => hinv e (List.mem_cons_of_mem _ he)
    by_cases hd : D < p.length
    · rw [if_pos hd] at h
      cases h
      exact hrest
    · rw [if_neg hd] at h
      cases hf : fetch u with
      | none =>
        simp only [hf] at h
        cases h
        exact hrest
      | some content =>
        simp only [hf] at h
        by_cases hcont : content = ""
        · rw [if_pos hcont] at h
          cases h
          exact hrest
        · rw [if_neg hcont] at h
          cases hpl : processLinks t D p (extract content u) rest vis with
          | inr path =>
            simp only [hpl] at h
            exact StepRes.noConfusion h
          | inl pair =>
            obtain ⟨q', vis'⟩ := pair
            simp only [hpl] at h
            cases h
            obtain ⟨_, sp2, _, _⟩ := processLinks_inl_spec _ _ _ _ _ hpl
            intro e he
            rcases sp2 e he with h3 | ⟨v, he2, _, hv3, _, _, _⟩
            · exact hrest e h3
            · subst he2
              right
              simp
              omega

theorem bfs_queue_invariant {fetch : String → Option String}
    {extract : String → String → List String} {t : String} {D : Nat} {s0 : String} :
    ∀ (n : Nat) (st st' : BfsSt), (∀ e ∈ st.queue, e = (s0, [s0]) ∨ e.2.length ≤ D) →
      stepN fetch extract t D n (.running st) = .running st' →
      ∀ e ∈ st'.queue, e = (s0, [s0]) ∨ e.2.length ≤ D := by
  intro n
  induction n with
  | zero =>
    intro st st' hinv h
    cases h
    exact hinv
  | succ n ih =>
    intro st st' hinv h
    rw [show stepN fetch extract t D (n + 1) (.running st)
        = stepN fetch extract t D n (bfsStep fetch extract t D st) from rfl] at h
    cases hstep : bfsStep fetch extract t D st with
    | finished res tr =>
      rw [hstep, stepN_finished] at h
      exact StepRes.noConfusion h
    | running st2 =>
      rw [hstep] at h
      exact ih st2 st' (bfsStep_queue_depth hinv hstep) h

end WikiPath

/-- **C4** (confirmed).  First conjunct — termination: for every fetch/extract
behaviour (finite link lists), start, target and `max_depth ≥ 0`, some fuel
completes the BFS loop, i.e. the while-loop runs a bounded number of
iterations.  Second conjunct — depth bound: in every state the loop can reach,
each frontier entry is either the initial seed `(start, [start])` (path length
1, placed before the loop) or was enqueued by the loop under the
`len(path) < max_depth` guard and so has path length at most `max_depth`; in
particular the loop never enqueues a node whose path length exceeds
`max_depth`. -/
theorem c4_bfs_terminates_and_depth_bounded :
    (∀ (fetch : String → Option String) (extract : String → String → List String)
      (start target : String) (D : Nat), ∃ fuel,
        (WikiPath.find_path fetch extract start target D fuel).isSome = true) ∧
    (∀ (fetch : String → Option String) (extract : String → String → List String)
      (start target : String) (D n : Nat) (st' : WikiPath.BfsSt),
      WikiPath.stepN fetch extract (WikiPath.normalize_url target) D n
        (WikiPath.StepRes.running
          ⟨[(WikiPath.normalize_url start, [WikiPath.normalize_url start])],
            [WikiPath.normalize_url start], []⟩)
        = WikiPath.StepRes.running st' →
      ∀ e ∈ st'.queue,
        e = (WikiPath.normalize_url start, [WikiPath.normalize_url start])
          ∨ e.2.length ≤ D) := by
  constructor
  · intro fetch extract start target D
    by_cases hst : WikiPath.normalize_url start = WikiPath.normalize_url target
    · exact ⟨0, by simp [WikiPath.find_path, hst]⟩
    · obtain ⟨n, res, tr, hn⟩ := WikiPath.bfs_terminates fetch extract
        (WikiPath.normalize_url target) D
        ⟨[(WikiPath.normalize_url start, [WikiPath.normalize_url start])],
          [WikiPath.normalize_url start], []⟩
      exact ⟨n, by simp [WikiPath.find_path, hst, hn]⟩
  · intro fetch extract start target D n st' h
    exact WikiPath.bfs_queue_invariant n _ st' (by simp) h

/-- Witness for `c4_bfs_terminates_and_depth_bounded` (second conjunct): after
one step from the seed with an extractor that always yields
`"https://h/wiki/C"`, the reached frontier holds the entry
`("https://h/wiki/C", [start, "https://h/wiki/C"])`, whose path length 2 obeys
the bound 3. -/
theorem c4_depth_bound_witness :
    ("https://h/wiki/C", ["https://h/wiki/A", "https://h/wiki/C"])
        = ("https://h/wiki/A", ["https://h/wiki/A"])
      ∨ (["https://h/wiki/A", "https://h/wiki/C"] : List String).length ≤ 3 :=
  c4_bfs_terminates_and_depth_bounded.2 (fun _ => some "x")
    (fun _ _ => ["https://h/wiki/C"]) "https://h/wiki/A" "https://h/wiki/B" 3 1
    ⟨[("https://h/wiki/C", ["https://h/wiki/A", "https://h/wiki/C"])],
      ["https://h/wiki/A", "https://h/wiki/C"], ["https://h/wiki/A"]⟩
    (by rfl)
    ("https://h/wiki/C", ["https://h/wiki/A", "https://h/wiki/C"]) (by simp)

namespace WikiPath

/-- Loop invariant for the path-shape properties: every visited URL is in
normalized form, the (normalized) target has never been marked visited (the
loop returns before it could be), and every frontier entry `(u, p)` carries a
nonempty duplicate-free path from the seed `s0` to `u` all of whose elements
are visited. -/
def goodState (s0 t : String) (st : BfsSt) : Prop :=
  (∀ x ∈ st.visited, ∃ y, x = normalize_url y) ∧
  t ∉ st.visited ∧
  ∀ e ∈ st.queue, e.2 ≠ [] ∧ e.2.head? = some s0 ∧ e.2.getLast? = some e.1 ∧
    e.2.Nodup ∧ ∀ x ∈ e.2, x ∈ st.visited

theorem bfsStep_good {fetch : String → Option String}
    {extract : String → String → List String} {t : String} {D : Nat} {s0 : String}
    {st st' : BfsSt} (hg : goodState s0 t st)
    (h : bfsStep fetch extract t D st = .running st') : goodState s0 t st' := by
  obtain ⟨hvnorm, hvt, hq⟩ := hg
  obtain ⟨qu, vis, tr⟩ := st
  cases qu with
  | nil => simp [bfsStep] at h
  | cons e0 rest =>
    obtain ⟨u, p⟩ := e0
    rw [bfsStep] at h
    have hrest : goodState s0 t ⟨rest, vis, tr⟩ :=
      ⟨hvnorm, hvt, fun e he => hq e (List.mem_cons_of_mem _ he)⟩
    have hrest' : ∀ tr', goodState s0 t ⟨rest, vis, tr'⟩ :=
      fun tr' => ⟨hvnorm, hvt, fun e he => hq e (List.mem_cons_of_mem _ he)⟩
    by_cases hd : D < p.length
    · rw [if_pos hd] at h
      cases h
      exact hrest
    · rw [if_neg hd] at h
      cases hf : fetch u with
      | none =>
        simp only [hf] at h
        cases h
        exact hrest' _
      | some content =>
        simp only [hf] at h
        by_cases hcont : content = ""
        · rw [if_pos hcont] at h
          cases h
          exact hrest' _
        · rw [if_neg hcont] at h
          cases hpl : processLinks t D p (extract content u) rest vis with
          | inr path =>
            simp only [hpl] at h
            exact StepRes.noConfusion h
          | inl pair =>
            obtain ⟨q', vis'⟩ := pair
            simp only [hpl] at h
            cases h
            obtain ⟨sp1, sp2, _, sp4⟩ := processLinks_inl_spec _ _ _ _ _ hpl
            obtain ⟨hpne, hphead, hplast, hpnodup, hpvis⟩ := hq (u, p) (by simp)
            refine ⟨?_, ?_, ?_⟩
            · intro x hx
              rcases sp4 x hx with h2 | h2
              · exact hvnorm x h2
              · exact h2.2
            · intro hx
              rcases sp4 t hx with h2 | h2
              · exact hvt h2
              · exact h2.1 rfl
            · intro e he
              rcases sp2 e he with h3 | ⟨v, he2, _, _, hv4, _, hv6⟩
              · obtain ⟨h5, h6, h7, h8, h9⟩ := hq e (List.mem_cons_of_mem _ h3)
                exact ⟨h5, h6, h7, h8, fun x hx => sp1 x (h9 x hx)⟩
              · subst he2
                refine ⟨by simp, ?_, ?_, ?_, ?_⟩
                · cases hp : p with
                  | nil => exact absurd hp hpne
                  | cons a as =>
                    subst hp
                    simp only [List.cons_append, List.head?_cons]
                    simpa using hphead
                · exact List.getLast?_concat _
                · rw [List.nodup_append]
                  refine ⟨hpnodup, by simp, ?_⟩
                  intro x hx hxv
                  rw [List.mem_singleton] at hxv
                  subst hxv
                  exact hv4 (hpvis x hx)
                · intro x hx
                  rcases List.mem_append.mp hx with h4 | h4
                  · exact sp1 x (hpvis x h4)
                  · rw [List.mem_singleton] at h4
                    subst h4
                    exact hv6

end WikiPath

namespace WikiPath

theorem bfs_found {fetch : String → Option String}
    {extract : String → String → List String} {t : String} {D : Nat} {s0 : String}
    (ht : ∃ y, t = normalize_url y) :
    ∀ (n : Nat) (st : BfsSt) (path tr : List String), goodState s0 t st →
      stepN fetch extract t D n (.running st) = .finished (some path) tr →
      path.Nodup ∧ path.head? = some s0 ∧ path.getLast? = some t ∧
        ∀ x ∈ path, ∃ y, x = normalize_url y := by
  intro n
  induction n with
  | zero =>
    intro st path tr hg h
    exact StepRes.noConfusion h
  | succ n ih =>
    intro st path tr hg h
    rw [show stepN fetch extract t D (n + 1) (.running st)
        = stepN fetch extract t D n (bfsStep fetch extract t D st) from rfl] at h
    cases hstep : bfsStep fetch extract t D st with
    | running st2 =>
      rw [hstep] at h
      exact ih st2 path tr (bfsStep_good hg hstep) h
    | finished res tr2 =>
      rw [hstep, stepN_finished] at h
      have hres : res = some path := by
        injection h with h1 h2
      subst hres
      obtain ⟨hvnorm, hvt, hq⟩ := hg
      obtain ⟨qu, vis, tr3⟩ := st
      cases qu with
      | nil => simp [bfsStep] at hstep
      | cons e0 rest =>
        obtain ⟨u, p⟩ := e0
        rw [bfsStep] at hstep
        by_cases hd : D < p.length
        · rw [if_pos hd] at hstep
          exact StepRes.noConfusion hstep
        · rw [if_neg hd] at hstep
          cases hf : fetch u with
          | none =>
            simp only [hf] at hstep
            exact StepRes.noConfusion hstep
          | some content =>
            simp only [hf] at hstep
            by_cases hcont : content = ""
            · rw [if_pos hcont] at hstep
              exact StepRes.noConfusion hstep
            · rw [if_neg hcont] at hstep
              cases hpl : processLinks t D p (extract content u) rest vis with
              | inl pair =>
                obtain ⟨q2, vis2⟩ := pair
                simp only [hpl] at hstep
                exact StepRes.noConfusion hstep
              | inr path2 =>
                simp only [hpl] at hstep
                have hpath : path2 = path := by
                  injection hstep with h1 h2
                  injection h1 with h3
                have hfinal : path = p ++ [t] := by
                  rw [← hpath]
                  exact processLinks_inr_spec _ _ _ _ hpl
                subst hfinal
                obtain ⟨hpne, hphead, _, hpnodup, hpvis⟩ := hq (u, p) (by simp)
                refine ⟨?_, ?_, List.getLast?_concat _, ?_⟩
                · rw [List.nodup_append]
                  refine ⟨hpnodup, by simp, ?_⟩
                  intro x hx hxt
                  rw [List.mem_singleton] at hxt
                  subst hxt
                  exact hvt (hpvis x hx)
                · cases hp : p with
                  | nil => exact absurd hp hpne
                  | cons a as =>
                    subst hp
                    simp only [List.cons_append, List.head?_cons]
                    simpa using hphead
                · intro x hx
                  rcases List.mem_append.mp hx with h4 | h4
                  · exact hvnorm x (hpvis x h4)
                  · rw [List.mem_singleton] at h4
                    subst h4
                    exact ht

end WikiPath

/-- **C9** (confirmed).  Every successful path returned by `find_path` consists
of pairwise-distinct URLs, each of which is the `normalize_url` of some string
(canonical form), whose first element is `normalize(start)` and whose last
element is `normalize(target)` — for any fetch/extract behaviour, any depth
bound and any fuel. -/
theorem c9_path_shape (fetch : String → Option String)
    (extract : String → String → List String) (start target : String)
    (D fuel : Nat) (path tr : List String)
    (h : WikiPath.find_path fetch extract start target D fuel = some (some path, tr)) :
    path.Nodup ∧ path.head? = some (WikiPath.normalize_url start) ∧
    path.getLast? = some (WikiPath.normalize_url target) ∧
    ∀ x ∈ path, ∃ y, x = WikiPath.normalize_url y := by
  rw [show WikiPath.find_path fetch extract start target D fuel
      = (if WikiPath.normalize_url start = WikiPath.normalize_url target then
          some (some [WikiPath.normalize_url start], [])
        else
          match WikiPath.stepN fetch extract (WikiPath.normalize_url target) D fuel
            (.running ⟨[(WikiPath.normalize_url start, [WikiPath.normalize_url start])],
              [WikiPath.normalize_url start], []⟩) with
          | .finished res tr => some (res, tr)
          | .running _ => none) from rfl] at h
  by_cases hst : WikiPath.normalize_url start = WikiPath.normalize_url target
  · rw [if_pos hst] at h
    have hpair : (some [WikiPath.normalize_url start],
        ([] : List String)) = (some path, tr) := by
      injection h
    have hpath : [WikiPath.normalize_url start] = path := by
      have := congrArg Prod.fst hpair
      simpa using this
    subst hpath
    refine ⟨by simp, rfl, ?_, ?_⟩
    · rw [hst]
      rfl
    · intro x hx
      rw [List.mem_singleton] at hx
      subst hx
      exact ⟨start, rfl⟩
  · rw [if_neg hst] at h
    cases hrun : WikiPath.stepN fetch extract (WikiPath.normalize_url target) D fuel
        (.running ⟨[(WikiPath.normalize_url start, [WikiPath.normalize_url start])],
          [WikiPath.normalize_url start], []⟩) with
    | running st2 =>
      rw [hrun] at h
      simp at h
    | finished res tr2 =>
      rw [hrun] at h
      have hpair : (res, tr2) = (some path, tr) := by
        injection h
      have hres : res = some path := congrArg Prod.fst hpair
      rw [hres] at hrun
      have hginit : WikiPath.goodState (WikiPath.normalize_url start)
          (WikiPath.normalize_url target)
          ⟨[(WikiPath.normalize_url start, [WikiPath.normalize_url start])],
            [WikiPath.normalize_url start], []⟩ := by
        refine ⟨?_, ?_, ?_⟩
        · intro x hx
          rw [List.mem_singleton] at hx
          subst hx
          exact ⟨start, rfl⟩
        · intro hx
          rw [List.mem_singleton] at hx
          exact hst hx.symm
        · intro e he
          rw [List.mem_singleton] at he
          subst he
          exact ⟨by simp, rfl, rfl, by simp, fun x hx => hx⟩
      exact WikiPath.bfs_found ⟨target, rfl⟩ fuel _ path tr2 hginit hrun

/-- Witness for `c9_path_shape`: a two-node search in which the extractor of
the start page yields the target directly. -/
theorem c9_path_shape_witness :
    (["https://h/wiki/A", "https://h/wiki/B"] : List String).Nodup ∧
    (["https://h/wiki/A", "https://h/wiki/B"] : List String).head?
      = some (WikiPath.normalize_url "https://h/wiki/A") :=
  ⟨(c9_path_shape (fun _ => some "x") (fun _ _ => ["https://h/wiki/B"])
      "https://h/wiki/A" "https://h/wiki/B" 5 2
      ["https://h/wiki/A", "https://h/wiki/B"] ["https://h/wiki/A"] rfl).1,
   (c9_path_shape (fun _ => some "x") (fun _ _ => ["https://h/wiki/B"])
      "https://h/wiki/A" "https://h/wiki/B" 5 2
      ["https://h/wiki/A", "https://h/wiki/B"] ["https://h/wiki/A"] rfl).2.1⟩
